import Mathlib

set_option maxRecDepth 8000

/-!
Shallow embedding of the DirectedAcyclicGraphTryout stat-graph core
(`src/include/Modifier.h`, `src/include/StatNode.h`, `src/include/HistoryNode.h`,
`src/include/GraphManagerV2.h`).

Conventions of the embedding:
* C++ `double` values are modelled as `ℚ` (exact field arithmetic); the one
  genuinely transcendental computation (`HistoryStatNode::GetDecayingValue`)
  is modelled over `ℝ`.
* `std::function` closures capturing ambient mutable game state are modelled
  as functions of an explicit environment `Env`; the ambient clock
  (`Clock::now()`) is an explicit `now : ℚ` parameter.
* A `std::weak_ptr` whose `lock()` fails is modelled as a node index that is
  out of range of the node store (lookup returns `none`, the caller skips it).
* Mutation is modelled by explicit state passing; the recursive pull
  (`StatNode::GetValue`) takes a fuel parameter, and the recursive push
  (`StatNode::InvalidateChildren`) terminates by the count of clean nodes.
-/

namespace DagStats

/-! ### Modifier system (src/include/Modifier.h) -/

/-- ModifierContext: the context handed to condition / dynamic-value
closures.  The tag container is modelled by the list of active tag names. -/
structure MCtx where
  tags : List String
  currentTime : ℚ

/-- ModifierType: Flat, Increased, More, Override (enum order matters for the
aggregator sort). -/
inductive MType
  | flat
  | increased
  | more
  | override
deriving DecidableEq

/-- static_cast<int> of the ModifierType enum value, used by the sort. -/
def MType.toIdx : MType → Nat
  | .flat => 0
  | .increased => 1
  | .more => 2
  | .override => 3

/-- Modifier: id, source, target stat, type, static value, priority, optional
condition, optional dynamic value, active flag. -/
structure Mod where
  id : String
  descr : String
  sourceId : String
  targetStatId : String
  type : MType
  value : ℚ
  priority : Int
  condition : Option (MCtx → Bool)
  dynamicValue : Option (MCtx → ℚ)
  isActive : Bool

/-- Modifier::EvaluateCondition: false when inactive; else the condition
closure when one is set; else true. -/
def Mod.evalCondition (m : Mod) (ctx : MCtx) : Bool :=
  if !m.isActive then false
  else
    match m.condition with
    | some c => c ctx
    | none => true

/-- Modifier::GetValue on the condition-met path: the dynamic value function
when present, else the static value.  (Inside `Calculate` this is only
reached right after `EvaluateCondition` returned true.) -/
def Mod.getValueAt (m : Mod) (ctx : MCtx) : ℚ :=
  match m.dynamicValue with
  | some f => f ctx
  | none => m.value

/-- The strict-weak order used by `ModifierAggregator::AddModifier`'s sort:
type enum value first, then priority, both ascending. -/
def modLE (a b : Mod) : Prop :=
  a.type.toIdx < b.type.toIdx ∨ (a.type.toIdx = b.type.toIdx ∧ a.priority ≤ b.priority)

instance : DecidableRel modLE := fun a b => by
  unfold modLE; infer_instance

instance : IsTotal Mod modLE := by
  constructor
  intro a b
  unfold modLE
  omega

instance : IsTrans Mod modLE := by
  constructor
  intro a b c hab hbc
  unfold modLE at *
  omega

instance : IsRefl Mod modLE := by
  constructor
  intro a
  unfold modLE
  omega

/-- ModifierAggregator::AddModifier: push back, then re-sort by
(type, priority). -/
def addModifier (mods : List Mod) (m : Mod) : List Mod :=
  (mods ++ [m]).insertionSort modLE

/-- ModifierAggregator::RemoveModifier: erase the modifiers whose id
matches. -/
def removeModifierAgg (mods : List Mod) (modifierId : String) : List Mod :=
  mods.filter (fun m => !(m.id == modifierId))

/-- ModifierAggregator::RemoveModifiersBySource: erase the modifiers whose
source id matches. -/
def removeModifiersBySourceAgg (mods : List Mod) (sourceId : String) : List Mod :=
  mods.filter (fun m => !(m.sourceId == sourceId))

/-- Accumulator state of the loop inside `ModifierAggregator::Calculate`. -/
structure CalcAcc where
  flat : ℚ
  increased : ℚ
  more : ℚ
  ovr : Option ℚ

/-- One iteration of the loop inside `ModifierAggregator::Calculate`. -/
def calcStep (ctx : MCtx) (acc : CalcAcc) (m : Mod) : CalcAcc :=
  if m.evalCondition ctx then
    let val := m.getValueAt ctx
    match m.type with
    | .flat => { acc with flat := acc.flat + val }
    | .increased => { acc with increased := acc.increased + val }
    | .more => { acc with more := acc.more * (1 + val) }
    | .override => { acc with ovr := some val }
  else acc

/-- ModifierAggregator::Calculate: fold the modifier list through the
accumulators, then either return the override or apply
`(base + flat) * (1 + increased) * more`. -/
def calculate (mods : List Mod) (baseValue : ℚ) (ctx : MCtx) : ℚ :=
  let acc := mods.foldl (calcStep ctx) ⟨0, 0, 1, none⟩
  match acc.ovr with
  | some v => v
  | none => (baseValue + acc.flat) * (1 + acc.increased) * acc.more

/-! Spec-side decompositions used to state the stacking law. -/

/-- The modifiers whose condition currently holds. -/
def applicableMods (ctx : MCtx) (mods : List Mod) : List Mod :=
  mods.filter (fun m => m.evalCondition ctx)

/-- Sum of the applicable Flat values. -/
def flatSum (ctx : MCtx) (mods : List Mod) : ℚ :=
  (((applicableMods ctx mods).filter (fun m => m.type == .flat)).map
    (fun m => m.getValueAt ctx)).sum

/-- Sum of the applicable Increased values. -/
def incSum (ctx : MCtx) (mods : List Mod) : ℚ :=
  (((applicableMods ctx mods).filter (fun m => m.type == .increased)).map
    (fun m => m.getValueAt ctx)).sum

/-- Product of (1 + value) over the applicable More modifiers. -/
def moreProd (ctx : MCtx) (mods : List Mod) : ℚ :=
  (((applicableMods ctx mods).filter (fun m => m.type == .more)).map
    (fun m => 1 + m.getValueAt ctx)).prod

/-- The applicable Override modifiers, in list order. -/
def ovrList (ctx : MCtx) (mods : List Mod) : List Mod :=
  (applicableMods ctx mods).filter (fun m => m.type == .override)

/-- Value of the last applicable Override, if any. -/
def lastOvr (ctx : MCtx) (mods : List Mod) : Option ℚ :=
  ((ovrList ctx mods).map (fun m => m.getValueAt ctx)).getLast?

/-- Modifier literal with default priority 0, no condition, no dynamic value,
active (the `Modifier` constructor defaults). -/
def mkSimpleMod (id : String) (ty : MType) (v : ℚ) : Mod :=
  ⟨id, "", "", "stat", ty, v, 0, none, none, true⟩

/-- An empty modifier context. -/
def ctx0 : MCtx := ⟨[], 0⟩

/-- Aggregator contents after adding Flat +10, Increased +0.5, More +0.2. -/
def aggFIM : List Mod :=
  addModifier (addModifier (addModifier [] (mkSimpleMod "f" .flat 10))
    (mkSimpleMod "i" .increased (1/2))) (mkSimpleMod "m" .more (1/5))

/-- The same aggregator after also adding an Override 42. -/
def aggFIMO : List Mod := addModifier aggFIM (mkSimpleMod "o" .override 42)


/-! ### Event ledger (src/include/HistoryNode.h) -/

/-- TimestampedEvent: value, timestamp (seconds on the ambient clock),
optional category. -/
structure HistEvent where
  value : ℚ
  timestamp : ℚ
  eventType : String

/-- TimestampedEvent::GetAge at clock time `now`. -/
def eventAge (e : HistEvent) (now : ℚ) : ℚ := now - e.timestamp

/-- TimestampedEvent::IsWithinWindow: age ≤ window. -/
def isWithinWindow (e : HistEvent) (now window : ℚ) : Bool :=
  eventAge e now ≤ window

/-- HistoryStatNode::MAX_EVENTS. -/
def MAX_EVENTS : Nat := 1000

/-- The `while (m_events.size() > MAX_EVENTS) m_events.pop_front();` loop of
`HistoryStatNode::RecordEvent`: while the size exceeds the maximum, drop the
front (structurally: each iteration pops the head). -/
def trimEvents : List HistEvent → List HistEvent
  | [] => []
  | e :: l => if MAX_EVENTS < (e :: l).length then trimEvents l else e :: l

/-- HistoryStatNode::SumRecent: sum of values of events within the window. -/
def sumRecent (events : List HistEvent) (now window : ℚ) : ℚ :=
  events.foldl (fun acc e => if isWithinWindow e now window then acc + e.value else acc) 0

/-- HistoryStatNode::CountRecent: number of events within the window. -/
def countRecent (events : List HistEvent) (now window : ℚ) : Nat :=
  events.countP (fun e => isWithinWindow e now window)

/-- HistoryStatNode::GetDecayingValue: most recent event's value decayed by
`exp(-0.693 * age / halfLife)`; 0 when the ledger is empty. -/
noncomputable def getDecayingValue (events : List HistEvent) (now halfLife : ℚ) : ℝ :=
  match events.getLast? with
  | none => 0
  | some e => (e.value : ℝ) * Real.exp (-(0.693) * ((eventAge e now : ℚ) : ℝ) / ((halfLife : ℚ) : ℝ))

/-- The decay formula as the spec words it (`value * 2^(-age/halfLife)`),
kept separate so it can be compared with the source's `getDecayingValue`. -/
noncomputable def specDecayingValue (events : List HistEvent) (now halfLife : ℚ) : ℝ :=
  match events.getLast? with
  | none => 0
  | some e => (e.value : ℝ) * (2 : ℝ) ^ (-(((eventAge e now : ℚ) : ℝ)) / ((halfLife : ℚ) : ℝ))

/-! ### Stat node graph (src/include/StatNode.h) -/

/-- Environment read by `std::function<bool()>` condition closures (the
mutable game state they capture). -/
abbrev Env := Nat → Bool

/-- StatNode::NodeType. -/
inductive NodeType
  | base
  | derived
  | history
deriving DecidableEq

/-- StatNode::ConditionalParent: parent index, optional condition closure,
description.  (`lastActive` is never read by any code a claim covers.) -/
structure CondParent where
  node : Nat
  cond : Option (Env → Bool)
  condDesc : String

/-- The three shapes of `m_calculateFunc`: null (default: sum), an ordinary
custom function of the parent values, or the closure that the
`HistoryStatNode` constructor installs (`SumRecent(m_defaultWindow)` over the
node's own ledger). -/
inductive CalcKind
  | defaultSum
  | fn (f : List ℚ → ℚ)
  | histSum

/-- StatNode (with the HistoryStatNode subclass state inlined as the
`events` / `defaultWindow` fields, unused by plain nodes). -/
structure Node where
  id : String
  label : String
  baseValue : ℚ
  cachedValue : ℚ
  isDirty : Bool
  type : NodeType
  parents : List Nat
  condParents : List CondParent
  children : List Nat
  calcKind : CalcKind
  nodeCategory : String
  isHistory : Bool
  events : List HistEvent
  defaultWindow : ℚ

/-- EdgeState (visualization snapshot row). -/
structure EdgeState where
  fromId : String
  toId : String
  isActive : Bool
  isConditional : Bool
  condDesc : String

/-- The node store (nodes addressed by index; an out-of-range index plays
the role of an expired weak_ptr). -/
structure GState where
  nodes : List Node

/-- Node lookup. -/
def getN (s : GState) (i : Nat) : Option Node := s.nodes[i]?

/-- Node replacement. -/
def setN (s : GState) (i : Nat) (n : Node) : GState := ⟨s.nodes.set i n⟩

/-- Dirty flag of node `i` (false for a missing node). -/
def dirtyB (s : GState) (i : Nat) : Bool :=
  match getN s i with
  | some n => n.isDirty
  | none => false

/-- Number of clean nodes (termination measure of the push invalidation). -/
def cleanCount (s : GState) : Nat := s.nodes.countP (fun n => !n.isDirty)

/-- Erase the dirty flag (used to state that an operation changes nothing
but dirty flags). -/
def stripDirty (n : Node) : Node := { n with isDirty := false }

/-- Erase the cached value and the dirty flag (used to state that a pull
changes nothing else). -/
def stripCache (n : Node) : Node := { n with cachedValue := 0, isDirty := false }

/-- StatNode constructor: cached value starts at the base value, Derived
nodes start dirty. -/
def mkStatNode (id label : String) (baseValue : ℚ) (ty : NodeType) : Node :=
  { id := id, label := label, baseValue := baseValue, cachedValue := baseValue,
    isDirty := ty == .derived, type := ty, parents := [], condParents := [],
    children := [], calcKind := .defaultSum, nodeCategory := "unknown",
    isHistory := false, events := [], defaultWindow := 0 }

/-- HistoryStatNode constructor: a Derived StatNode with base value 0 whose
calculation function is `SumRecent(windowSeconds)` over its own ledger. -/
def mkHistoryNode (id label : String) (windowSeconds : ℚ) : Node :=
  { mkStatNode id label 0 .derived with defaultWindow := windowSeconds, calcKind := .histSum }

/-- StatNode::SetIsHistoryNode: records the flag and, when set, switches the
node type to History. -/
def setIsHistoryNode (n : Node) (isHistory : Bool) : Node :=
  { n with isHistory := isHistory, type := if isHistory then .history else n.type }

/-- StatNode::InvalidateChildren, as a depth-first worklist: visit each
pending node; an already-dirty (or missing) node is skipped, a clean node is
marked dirty and its children are prepended to the worklist. -/
def invalidate (s : GState) (stack : List Nat) : GState :=
  match stack with
  | [] => s
  | i :: rest =>
    match h : getN s i with
    | none => invalidate s rest
    | some n =>
      if hd : n.isDirty then invalidate s rest
      else invalidate (setN s i { n with isDirty := true }) (n.children ++ rest)
termination_by (cleanCount s, stack.length)
decreasing_by
  · apply Prod.Lex.right
    simp
  · apply Prod.Lex.right
    simp
  · apply Prod.Lex.left
    have key : ∀ (l : List Node) (i : Nat) (n : Node), l[i]? = some n → n.isDirty = false →
        (l.set i { n with isDirty := true }).countP (fun m => !m.isDirty) <
          l.countP (fun m => !m.isDirty) := by
      intro l
      induction l with
      | nil => intro i n h _; simp at h
      | cons a t ih =>
        intro i n h hdf
        cases i with
        | zero =>
          simp only [List.getElem?_cons_zero, Option.some.injEq] at h
          subst h
          simp [List.countP_cons, hdf]
        | succ j =>
          simp only [List.getElem?_cons_succ] at h
          have := ih j n h hdf
          simp only [List.set_cons_succ, List.countP_cons]
          omega
    simp only [cleanCount, setN]
    exact key s.nodes i n h (by simpa using hd)

/-- StatNode::SetBaseValue: no-op when the value is unchanged; otherwise
store it (updating the cache on Base/History nodes) and push invalidation to
the children. -/
def setBaseValueOp (s : GState) (i : Nat) (value : ℚ) : GState :=
  match getN s i with
  | none => s
  | some n =>
    if n.baseValue = value then s
    else
      let n1 :=
        if n.type == .base || n.type == .history then
          { n with baseValue := value, cachedValue := value }
        else { n with baseValue := value }
      invalidate (setN s i n1) n.children

/-- StatNode::MarkDirty: only when currently clean, set the flag and push
invalidation to the children. -/
def markDirtyOp (s : GState) (i : Nat) : GState :=
  match getN s i with
  | none => s
  | some n =>
    if n.isDirty then s
    else invalidate (setN s i { n with isDirty := true }) n.children

/-- StatNode::AddParent on child `i`: append to the child's parents, append
the child to the parent's children, and mark the child dirty if it is
Derived. -/
def addParent (s : GState) (i p : Nat) : GState :=
  match getN s p with
  | none => s
  | some _ =>
    match getN s i with
    | none => s
    | some c =>
      let s1 := setN s i { c with parents := c.parents ++ [p] }
      let s2 :=
        match getN s1 p with
        | some pn => setN s1 p { pn with children := pn.children ++ [i] }
        | none => s1
      match getN s2 i with
      | some c2 => if c2.type == .derived then setN s2 i { c2 with isDirty := true } else s2
      | none => s2

/-- StatNode::AddConditionalParent on child `i`: append the conditional
entry, append the child to the parent's children, and mark the child dirty
unconditionally. -/
def addConditionalParent (s : GState) (i p : Nat) (cond : Option (Env → Bool))
    (condDesc : String) : GState :=
  match getN s p with
  | none => s
  | some _ =>
    match getN s i with
    | none => s
    | some c =>
      let s1 := setN s i { c with condParents := c.condParents ++ [⟨p, cond, condDesc⟩] }
      let s2 :=
        match getN s1 p with
        | some pn => setN s1 p { pn with children := pn.children ++ [i] }
        | none => s1
      match getN s2 i with
      | some c2 => setN s2 i { c2 with isDirty := true }
      | none => s2

/-- The condition check `cp.condition && cp.condition()` inside
`StatNode::GetValue`: a null condition closure yields false. -/
def condActive (cp : CondParent) (env : Env) : Bool :=
  match cp.cond with
  | some c => c env
  | none => false

/-- The parent indices pulled by a dirty Derived node: all ordinary parents,
then the conditional parents whose condition holds right now. -/
def activeIds (env : Env) (n : Node) : List Nat :=
  n.parents ++ ((n.condParents.filter (fun cp => condActive cp env)).map (fun cp => cp.node))

/-- Apply the node's calculation function (or the default sum) to the pulled
parent values. -/
def applyCalc (n : Node) (now : ℚ) (vs : List ℚ) : ℚ :=
  match n.calcKind with
  | .defaultSum => vs.foldl (· + ·) 0
  | .fn f => f vs
  | .histSum => sumRecent n.events now n.defaultWindow

/-- Instrumentation: 1 when a custom calculation function would be invoked
(`m_calculateFunc` non-null), 0 on the default-sum path. -/
def calcCount (k : CalcKind) : Nat :=
  match k with
  | .defaultSum => 0
  | .fn _ => 1
  | .histSum => 1

/-- The pull loop over a list of parent indices: skip missing nodes, thread
the state, collect the values, and add up calculation-function invocation
counts. -/
def pullIds (gv : GState → Nat → ℚ × GState × Nat) : GState → List Nat → List ℚ × GState × Nat
  | s, [] => ([], s, 0)
  | s, i :: rest =>
    match getN s i with
    | none => pullIds gv s rest
    | some _ =>
      let r := gv s i
      let r2 := pullIds gv r.2.1 rest
      (r.1 :: r2.1, r2.2.1, r.2.2 + r2.2.2)

/-- StatNode::GetValue with fuel for the recursion through parents.  Returns
(value, updated state, number of calculation-function invocations).
Base/History nodes return their base value; a clean Derived node returns the
cache; a dirty Derived node pulls its active parents, applies the
calculation function (default: sum), caches the result and clears the
flag. -/
def getValue : Nat → Env → ℚ → GState → Nat → ℚ × GState × Nat
  | 0, _, _, s, _ => (0, s, 0)
  | fuel + 1, env, now, s, i =>
    match getN s i with
    | none => (0, s, 0)
    | some n =>
      if n.type == .base || n.type == .history then (n.baseValue, s, 0)
      else if !n.isDirty then (n.cachedValue, s, 0)
      else
        let r := pullIds (getValue fuel env now) s (activeIds env n)
        match getN r.2.1 i with
        | none => (0, r.2.1, r.2.2)
        | some n1 =>
          let v := applyCalc n1 now r.1
          (v, setN r.2.1 i { n1 with cachedValue := v, isDirty := false },
            r.2.2 + calcCount n1.calcKind)

/-- StatNode::GetEdgeStates: one row per reachable ordinary parent (always
active) and per reachable conditional parent, whose activity is
`cp.condition ? cp.condition() : true` — a null condition reads as active
here. -/
def getEdgeStates (s : GState) (env : Env) (i : Nat) : List EdgeState :=
  match getN s i with
  | none => []
  | some n =>
    (n.parents.filterMap (fun p =>
      (getN s p).map (fun pn => ⟨pn.id, n.id, true, false, ""⟩)))
    ++ (n.condParents.filterMap (fun cp =>
      (getN s cp.node).map (fun pn =>
        ⟨pn.id, n.id, (match cp.cond with | some c => c env | none => true), true,
          cp.condDesc⟩)))

/-- HistoryStatNode::RecordEvent on node `i`: append a now-stamped event,
trim to MAX_EVENTS from the front, then MarkDirty. -/
def recordEventOn (s : GState) (i : Nat) (value : ℚ) (now : ℚ) (eventType : String) : GState :=
  match getN s i with
  | none => s
  | some n =>
    markDirtyOp (setN s i { n with events := trimEvents (n.events ++ [⟨value, now, eventType⟩]) }) i

/-- HistoryStatNode::RecordEventAt on node `i`: append an event with an
explicit timestamp (no trimming), then MarkDirty. -/
def recordEventAtOn (s : GState) (i : Nat) (value : ℚ) (time : ℚ) (eventType : String) : GState :=
  match getN s i with
  | none => s
  | some n =>
    markDirtyOp (setN s i { n with events := n.events ++ [⟨value, time, eventType⟩] }) i

/-- Reachability along child edges (one or more edges). -/
inductive Reach (s : GState) : Nat → Nat → Prop
  | head (i : Nat) (n : Node) (j : Nat) :
      getN s i = some n → j ∈ n.children → Reach s i j
  | step (i : Nat) (n : Node) (j k : Nat) :
      getN s i = some n → j ∈ n.children → Reach s j k → Reach s i k

/-- Reachability along child edges through nodes that are all clean
(including both endpoints); this is exactly the set of nodes a running
`InvalidateChildren` will newly mark. -/
inductive CReach (s : GState) : Nat → Nat → Prop
  | here (i : Nat) (n : Node) :
      getN s i = some n → n.isDirty = false → CReach s i i
  | step (i : Nat) (n : Node) (j k : Nat) :
      getN s i = some n → n.isDirty = false → j ∈ n.children → CReach s j k → CReach s i k

/-- Dirtiness is down-closed: every child of a dirty node is dirty.  (The
invariant `SetBaseValue` / `MarkDirty` propagation maintains, but which
`AddParent` on an already-pulled graph, or a pull that skips an inactive
conditional parent, can break.) -/
def DownClosed (s : GState) : Prop :=
  ∀ i n, getN s i = some n → n.isDirty = true → ∀ j ∈ n.children, dirtyB s j = true

/-- All child indices are in range (no expired weak pointers). -/
def WF (s : GState) : Prop :=
  ∀ i n, getN s i = some n → ∀ j ∈ n.children, j < s.nodes.length

/-- Decidable check for `DownClosed`. -/
def downClosedB (s : GState) : Bool :=
  s.nodes.all (fun n => !n.isDirty || n.children.all (fun j => dirtyB s j))

/-- Decidable check for `WF`. -/
def wfB (s : GState) : Bool :=
  s.nodes.all (fun n => n.children.all (fun j => decide (j < s.nodes.length)))

/-! ### Graph manager (src/include/GraphManagerV2.h) -/

/-- GraphManager state: the node store, the insertion-ordered id list, the
ids registered as history nodes, the per-target modifier aggregators, and
the pending-changes flag. -/
structure GM where
  gs : GState
  nodeOrder : List String
  histIds : List String
  modAggs : List (String × List Mod)
  hasChanges : Bool

/-- A freshly constructed GraphManager. -/
def gmInit : GM := ⟨⟨[]⟩, [], [], [], false⟩

/-- Index of the node registered under `id`. -/
def findIdxById (s : GState) (id : String) : Option Nat :=
  s.nodes.findIdx? (fun n => n.id == id)

/-- SetCategory when the category argument is non-empty (the create
helpers). -/
def withCategory (n : Node) (category : String) : Node :=
  if category == "" then n else { n with nodeCategory := category }

/-- GraphManager::RegisterNode: a duplicate id is a fatal error (modelled as
`none`); otherwise append the node and set the pending-changes flag. -/
def registerNode (gm : GM) (node : Node) : Option GM :=
  if gm.gs.nodes.any (fun n => n.id == node.id) then none
  else
    some { gm with
      gs := ⟨gm.gs.nodes ++ [node]⟩,
      nodeOrder := gm.nodeOrder ++ [node.id],
      hasChanges := true }

/-- GraphManager::CreateBaseStat. -/
def createBaseStat (gm : GM) (id label : String) (baseValue : ℚ) (category : String) :
    Option GM :=
  registerNode gm (withCategory (mkStatNode id label baseValue .base) category)

/-- GraphManager::CreateHistoryNode: build a HistoryStatNode, set the
category, switch it to a history node (SetIsHistoryNode(true)), record it in
the history-node map, then register it. -/
def createHistoryNode (gm : GM) (id label : String) (windowSeconds : ℚ) (category : String) :
    Option GM :=
  let node := setIsHistoryNode (withCategory (mkHistoryNode id label windowSeconds) category) true
  registerNode { gm with histIds := gm.histIds ++ [id] } node

/-- GraphManager::SetNodeValue: found ⇒ SetBaseValue + flag + true;
not found ⇒ false, untouched. -/
def setNodeValue (gm : GM) (id : String) (value : ℚ) : Bool × GM :=
  match findIdxById gm.gs id with
  | some i => (true, { gm with gs := setBaseValueOp gm.gs i value, hasChanges := true })
  | none => (false, gm)

/-- GraphManager::RecordDamage: on a registered history node, RecordEvent
and set the flag; unknown id ⇒ nothing. -/
def recordDamage (gm : GM) (historyNodeId : String) (amount : ℚ) (damageType : String)
    (now : ℚ) : GM :=
  if gm.histIds.contains historyNodeId then
    match findIdxById gm.gs historyNodeId with
    | some i => { gm with gs := recordEventOn gm.gs i amount now damageType, hasChanges := true }
    | none => gm
  else gm

/-- GraphManager::RemoveModifier: remove the id from every aggregator and
set the pending-changes flag unconditionally. -/
def removeModifierGM (gm : GM) (modifierId : String) : GM :=
  { gm with
    modAggs := gm.modAggs.map (fun p => (p.1, removeModifierAgg p.2 modifierId)),
    hasChanges := true }

/-- GraphManager::RemoveModifiersBySource: for every aggregator, remove the
matching modifiers and MarkDirty its target node; set the pending-changes
flag unconditionally. -/
def removeModifiersBySource (gm : GM) (sourceId : String) : GM :=
  let r := gm.modAggs.foldl
    (fun (acc : List (String × List Mod) × GState) p =>
      let gs' :=
        match findIdxById acc.2 p.1 with
        | some i => markDirtyOp acc.2 i
        | none => acc.2
      (acc.1 ++ [(p.1, removeModifiersBySourceAgg p.2 sourceId)], gs'))
    ([], gm.gs)
  { gm with modAggs := r.1, gs := r.2, hasChanges := true }

/-! ### Concrete states used by the individual claims -/

/-- Environment with every flag off. -/
def envFalse : Env := fun _ => false

/-- Environment with every flag on. -/
def envTrue : Env := fun _ => true

/-- Three raw nodes: A (Base 10), B (Derived), C (Derived). -/
def cexBase : GState :=
  ⟨[mkStatNode "A" "A" 10 .base, mkStatNode "B" "B" 0 .derived,
    mkStatNode "C" "C" 0 .derived]⟩

/-- Reachable state with a dirty node whose child is clean: make C a child
of B, pull C (cleaning B and C), then give B a new parent A — AddParent
marks B dirty without invalidating C. -/
def cexS : GState :=
  addParent ((getValue 3 envFalse 0 (addParent cexBase 2 1) 2).2.1) 1 0

/-- Nodes p (Base 100), q (Base 50), d (Derived, default sum). -/
def c5base : GState :=
  ⟨[mkStatNode "p" "p" 100 .base, mkStatNode "q" "q" 50 .base,
    mkStatNode "d" "d" 0 .derived]⟩

/-- d pulls p unconditionally and q under the given condition. -/
def c5state (cond : Env → Bool) : GState :=
  addConditionalParent (addParent c5base 2 0) 2 1 (some cond) "flag"

/-- The conditional predicate of the C5 scenario: reads flag 0 of the
environment. -/
def flagCond : Env → Bool := fun env => env 0

/-- d has p as a conditional parent with a null condition closure. -/
def c10state : GState :=
  addConditionalParent
    ⟨[mkStatNode "p" "p" 50 .base, mkStatNode "d" "d" 0 .derived]⟩ 1 0 none "null-cond"

/-- A custom calculation function: twice the sum of the parent values. -/
def w3calc : List ℚ → ℚ := fun vs => vs.foldl (· + ·) 0 * 2

/-- b (Base 10) feeding d (Derived with calculation function `w3calc`). -/
def w3state : GState :=
  addParent
    ⟨[mkStatNode "b" "b" 10 .base,
      { mkStatNode "d" "d" 0 .derived with calcKind := .fn w3calc }]⟩ 1 0

/-- A single manager-made history node (window 4), outside a manager. -/
def c7node : GState := ⟨[setIsHistoryNode (mkHistoryNode "h" "h" 4) true]⟩

/-- Iterate RecordEventAt (value 1, timestamp 0) on node 0. -/
def iterRecordAt : Nat → GState → GState
  | 0, s => s
  | k + 1, s => iterRecordAt k (recordEventAtOn s 0 1 0 "")

/-- The C7 single-history-node store with explicit dirty flag and ledger. -/
def stateC7 (b : Bool) (E : List HistEvent) : GState :=
  ⟨[{ setIsHistoryNode (mkHistoryNode "h" "h" 4) true with isDirty := b, events := E }]⟩

/-- A (Base 10) feeding B (Derived, dirty since `AddParent`); down-closed. -/
def w4state : GState :=
  addParent ⟨[mkStatNode "A" "A" 10 .base, mkStatNode "B" "B" 0 .derived]⟩ 1 0

/-- Manager with one history node "h" (window 4 seconds). -/
def gmH : GM := (createHistoryNode gmInit "h" "H" 4 "").getD gmInit

/-- The same manager after `RecordDamage("h", 5)` at clock time 0. -/
def gmH2 : GM := recordDamage gmH "h" 5 "" 0

/-! ### Theorems -/

theorem or_of_some {α : Type} (a : α) (o : Option α) : (some a).or o = some a := rfl

theorem getLast?_cons_or {α : Type} (x : α) (l : List α) :
    (x :: l).getLast? = l.getLast?.or (some x) := by
  induction l generalizing x with
  | nil => rfl
  | cons y t ih =>
    rw [List.getLast?_cons_cons, ih y, Option.or_assoc]
    rfl

theorem foldl_calcStep (ctx : MCtx) (mods : List Mod) (acc : CalcAcc) :
    mods.foldl (calcStep ctx) acc =
      ⟨acc.flat + flatSum ctx mods, acc.increased + incSum ctx mods,
       acc.more * moreProd ctx mods, (lastOvr ctx mods).or acc.ovr⟩ := by
  induction mods generalizing acc with
  | nil =>
    simp [flatSum, incSum, moreProd, lastOvr, ovrList, applicableMods, Option.or]
  | cons m t ih =>
    simp only [List.foldl_cons, ih]
    by_cases hc : m.evalCondition ctx
    · rcases hty : m.type with _ | _ | _ | _
      · simp [calcStep, hc, hty, flatSum, incSum, moreProd, lastOvr, ovrList,
          applicableMods, List.filter_cons]
        ring
      · simp [calcStep, hc, hty, flatSum, incSum, moreProd, lastOvr, ovrList,
          applicableMods, List.filter_cons]
        ring
      · simp [calcStep, hc, hty, flatSum, incSum, moreProd, lastOvr, ovrList,
          applicableMods, List.filter_cons]
        ring
      · simp [calcStep, hc, hty, flatSum, incSum, moreProd, lastOvr, ovrList,
          applicableMods, List.filter_cons, getLast?_cons_or, Option.or_assoc,
          or_of_some]
    · simp [calcStep, hc, flatSum, incSum, moreProd, lastOvr, ovrList,
        applicableMods, List.filter_cons]

theorem calculate_eq (mods : List Mod) (baseValue : ℚ) (ctx : MCtx) :
    calculate mods baseValue ctx =
      match lastOvr ctx mods with
      | some v => v
      | none =>
        (baseValue + flatSum ctx mods) * (1 + incSum ctx mods) * moreProd ctx mods := by
  unfold calculate
  rw [foldl_calcStep]
  rcases h : lastOvr ctx mods with _ | v <;> simp [h, Option.or]

theorem sorted_rel_getLast {α : Type} {r : α → α → Prop} [IsRefl α r] :
    ∀ {l : List α}, l.Sorted r → ∀ {x a : α}, x ∈ l → l.getLast? = some a → r x a := by
  intro l
  induction l with
  | nil => intro _ x a hx; cases hx
  | cons b t ih =>
    intro hs x a hx hl
    cases t with
    | nil =>
      simp only [List.getLast?_singleton, Option.some.injEq] at hl
      have hxb := List.mem_singleton.mp hx
      subst hxb
      subst hl
      exact @IsRefl.refl _ r _ x
    | cons c t' =>
      rw [List.getLast?_cons_cons] at hl
      rcases List.mem_cons.mp hx with hxb | hxt
      · subst hxb
        exact List.rel_of_sorted_cons hs a (List.mem_of_mem_getLast? hl)
      · exact ih hs.of_cons hxt hl

/-- C1: `ModifierAggregator::Calculate` returns
`(base + Σ applicable Flat) * (1 + Σ applicable Increased) * Π (1 + applicable More)`
when no applicable Override exists, and otherwise exactly the value of the
last applicable Override in the list; the list is kept sorted by
(type, ascending priority), under which the last applicable Override has the
greatest priority among applicable Overrides; base 100 with Flat +10,
Increased +0.5, More +0.2 yields 198, and adding an applicable Override 42
yields exactly 42. -/
theorem modifier_stacking_law :
    (∀ (mods : List Mod) (baseValue : ℚ) (ctx : MCtx),
      lastOvr ctx mods = none →
        calculate mods baseValue ctx =
          (baseValue + flatSum ctx mods) * (1 + incSum ctx mods) * moreProd ctx mods) ∧
    (∀ (mods : List Mod) (baseValue : ℚ) (ctx : MCtx) (v : ℚ),
      lastOvr ctx mods = some v → calculate mods baseValue ctx = v) ∧
    (∀ (mods : List Mod) (ctx : MCtx),
      lastOvr ctx mods = ((ovrList ctx mods).getLast?).map (fun m => m.getValueAt ctx)) ∧
    (∀ (mods : List Mod) (ctx : MCtx) (lm : Mod),
      mods.Sorted modLE → (ovrList ctx mods).getLast? = some lm →
        ∀ x ∈ ovrList ctx mods, x.priority ≤ lm.priority) ∧
    (∀ (mods : List Mod) (m : Mod), (addModifier mods m).Sorted modLE) ∧
    calculate aggFIM 100 ctx0 = 198 ∧
    calculate aggFIMO 100 ctx0 = 42 := by
  refine ⟨?_, ?_, ?_, ?_, ?_, ?_, ?_⟩
  · intro mods b ctx h
    rw [calculate_eq, h]
  · intro mods b ctx v h
    rw [calculate_eq, h]
  · intro mods ctx
    unfold lastOvr
    exact (List.getLast?_map _ _)
  · intro mods ctx lm hs hl x hx
    have hsf : (ovrList ctx mods).Sorted modLE := by
      unfold ovrList applicableMods
      exact (hs.filter _).filter _
    have hr := sorted_rel_getLast hsf hx hl
    have hxo : x.type = MType.override := by
      have := (List.mem_filter.mp hx).2
      exact beq_iff_eq.mp this
    have hlo : lm.type = MType.override := by
      have := (List.mem_filter.mp (List.mem_of_mem_getLast? hl)).2
      exact beq_iff_eq.mp this
    rcases hr with h | h
    · rw [hxo, hlo] at h
      exact absurd h (by simp [MType.toIdx])
    · exact h.2
  · intro mods m
    exact List.sorted_insertionSort modLE (mods ++ [m])
  · have hA : aggFIM = [mkSimpleMod "f" .flat 10, mkSimpleMod "i" .increased (1/2),
        mkSimpleMod "m" .more (1/5)] := rfl
    rw [hA]
    simp [calculate, calcStep, Mod.evalCondition, Mod.getValueAt, mkSimpleMod]
    norm_num
  · have hB : aggFIMO = [mkSimpleMod "f" .flat 10, mkSimpleMod "i" .increased (1/2),
        mkSimpleMod "m" .more (1/5), mkSimpleMod "o" .override 42] := rfl
    rw [hB]
    simp [calculate, calcStep, Mod.evalCondition, Mod.getValueAt, mkSimpleMod]


/-! Basic store lemmas. -/

theorem getN_lt_length {s : GState} {i : Nat} {n : Node} (h : getN s i = some n) :
    i < s.nodes.length := by
  by_contra hlt
  rw [getN, List.getElem?_eq_none (by omega)] at h
  cases h

theorem setN_length (s : GState) (i : Nat) (n : Node) :
    (setN s i n).nodes.length = s.nodes.length := by
  simp [setN]

theorem getN_setN (s : GState) (i j : Nat) (n : Node) :
    getN (setN s i n) j =
      if i = j then (if i < s.nodes.length then some n else none) else getN s j := by
  simp [getN, setN, List.getElem?_set]

theorem getN_setN_same {s : GState} {i : Nat} {n m : Node} (h : getN s i = some n) :
    getN (setN s i m) i = some m := by
  rw [getN_setN, if_pos rfl, if_pos (getN_lt_length h)]

theorem getN_setN_other (s : GState) {i j : Nat} (n : Node) (h : j ≠ i) :
    getN (setN s i n) j = getN s j := by
  rw [getN_setN, if_neg (by omega)]

/-! The mark step of `invalidate`: how one `setN _ _ {n with isDirty := true}`
interacts with lookup, dirtiness and clean reachability. -/

theorem dirtyB_mark {s : GState} {i : Nat} {n : Node} (h : getN s i = some n) (j : Nat) :
    dirtyB (setN s i { n with isDirty := true }) j =
      (dirtyB s j || decide (j = i)) := by
  by_cases hji : j = i
  · subst hji
    simp [dirtyB, getN_setN_same h]
  · simp [dirtyB, getN_setN_other _ _ hji, hji]

theorem creach_unmark {s : GState} {i : Nat} {n : Node} (h : getN s i = some n) :
    ∀ {c j : Nat}, CReach (setN s i { n with isDirty := true }) c j → CReach s c j := by
  intro c j hcr
  induction hcr with
  | here c m hm hcl =>
    have hci : c ≠ i := by
      intro he
      subst he
      rw [getN_setN_same h] at hm
      cases hm
      cases hcl
    rw [getN_setN_other _ _ hci] at hm
    exact CReach.here c m hm hcl
  | step c m d k hm hcl hd _ ih =>
    have hci : c ≠ i := by
      intro he
      subst he
      rw [getN_setN_same h] at hm
      cases hm
      cases hcl
    rw [getN_setN_other _ _ hci] at hm
    exact CReach.step c m d k hm hcl hd ih

theorem creach_cut {s : GState} {i : Nat} {n : Node} (h : getN s i = some n) :
    ∀ {c j : Nat}, CReach s c j → j ≠ i →
      CReach (setN s i { n with isDirty := true }) c j ∨
        ∃ d ∈ n.children, CReach (setN s i { n with isDirty := true }) d j := by
  intro c j hcr
  induction hcr with
  | here c m hm hcl =>
    intro hji
    left
    rw [← getN_setN_other s ({ n with isDirty := true}) hji] at hm
    exact CReach.here c m hm hcl
  | step c m d k hm hcl hd hk ih =>
    intro hki
    rcases ih hki with ih1 | ih2
    · by_cases hci : c = i
      · subst hci
        rw [h] at hm
        cases hm
        exact Or.inr ⟨d, hd, ih1⟩
      · left
        rw [← getN_setN_other s ({ n with isDirty := true}) hci] at hm
        exact CReach.step c m d k hm hcl hd ih1
    · exact Or.inr ih2


/-! Unfolding equations for `invalidate`. -/

theorem invalidate_nil (s : GState) : invalidate s [] = s := by
  rw [invalidate]

theorem invalidate_cons_none {s : GState} {i : Nat} {rest : List Nat}
    (h : getN s i = none) :
    invalidate s (i :: rest) = invalidate s rest := by
  rw [invalidate]
  split
  · rfl
  · rename_i n heq
    rw [h] at heq
    cases heq

theorem invalidate_cons_dirty {s : GState} {i : Nat} {rest : List Nat} {n : Node}
    (h : getN s i = some n) (hd : n.isDirty = true) :
    invalidate s (i :: rest) = invalidate s rest := by
  rw [invalidate]
  split
  · rfl
  · rename_i n' heq
    rw [h] at heq
    cases heq
    rw [dif_pos hd]

theorem invalidate_cons_clean {s : GState} {i : Nat} {rest : List Nat} {n : Node}
    (h : getN s i = some n) (hd : n.isDirty = false) :
    invalidate s (i :: rest) =
      invalidate (setN s i { n with isDirty := true }) (n.children ++ rest) := by
  rw [invalidate]
  split
  · rename_i heq
    rw [h] at heq
    cases heq
  · rename_i n' heq
    rw [h] at heq
    cases heq
    rw [dif_neg (by simp [hd])]

/-! Characterization of the push invalidation. -/

theorem invalidate_length (s : GState) (stack : List Nat) :
    (invalidate s stack).nodes.length = s.nodes.length := by
  induction s, stack using invalidate.induct with
  | case1 s => rw [invalidate_nil]
  | case2 s i rest h ih => rw [invalidate_cons_none h]; exact ih
  | case3 s i rest n h hd ih => rw [invalidate_cons_dirty h hd]; exact ih
  | case4 s i rest n h hd ih =>
    rw [invalidate_cons_clean h (by simpa using hd)]
    rw [ih, setN_length]

theorem invalidate_strip (s : GState) (stack : List Nat) (j : Nat) :
    (getN (invalidate s stack) j).map stripDirty = (getN s j).map stripDirty := by
  induction s, stack using invalidate.induct with
  | case1 s => rw [invalidate_nil]
  | case2 s i rest h ih => rw [invalidate_cons_none h]; exact ih
  | case3 s i rest n h hd ih => rw [invalidate_cons_dirty h hd]; exact ih
  | case4 s i rest n h hd ih =>
    rw [invalidate_cons_clean h (by simpa using hd)]
    rw [ih]
    by_cases hji : j = i
    · subst hji
      rw [getN_setN_same h, h]
      rfl
    · rw [getN_setN_other _ _ hji]

theorem invalidate_dirty_iff (s : GState) (stack : List Nat) (j : Nat) :
    dirtyB (invalidate s stack) j = true ↔
      dirtyB s j = true ∨ ∃ c ∈ stack, CReach s c j := by
  induction s, stack using invalidate.induct with
  | case1 s =>
    rw [invalidate_nil]
    simp
  | case2 s i rest h ih =>
    rw [invalidate_cons_none h, ih]
    constructor
    · rintro (hd | ⟨c, hc, hcr⟩)
      · exact Or.inl hd
      · exact Or.inr ⟨c, List.mem_cons_of_mem _ hc, hcr⟩
    · rintro (hd | ⟨c, hc, hcr⟩)
      · exact Or.inl hd
      · rcases List.mem_cons.mp hc with rfl | hc'
        · cases hcr with
          | here _ m hm _ => rw [h] at hm; cases hm
          | step _ m _ _ hm _ _ _ => rw [h] at hm; cases hm
        · exact Or.inr ⟨c, hc', hcr⟩
  | case3 s i rest n h hd ih =>
    rw [invalidate_cons_dirty h hd, ih]
    constructor
    · rintro (hdj | ⟨c, hc, hcr⟩)
      · exact Or.inl hdj
      · exact Or.inr ⟨c, List.mem_cons_of_mem _ hc, hcr⟩
    · rintro (hdj | ⟨c, hc, hcr⟩)
      · exact Or.inl hdj
      · rcases List.mem_cons.mp hc with rfl | hc'
        · cases hcr with
          | here _ m hm hcl => rw [h] at hm; cases hm; rw [hd] at hcl; cases hcl
          | step _ m _ _ hm hcl _ _ => rw [h] at hm; cases hm; rw [hd] at hcl; cases hcl
        · exact Or.inr ⟨c, hc', hcr⟩
  | case4 s i rest n h hd ih =>
    have hdf : n.isDirty = false := by simpa using hd
    rw [invalidate_cons_clean h hdf, ih]
    constructor
    · rintro (hdj | ⟨c, hc, hcr⟩)
      · rw [dirtyB_mark h] at hdj
        rcases Bool.or_eq_true_iff.mp hdj with hdj | hji
        · exact Or.inl hdj
        · have hji' : j = i := of_decide_eq_true hji
          subst hji'
          exact Or.inr ⟨j, List.mem_cons_self _ _, CReach.here j n h hdf⟩
      · have hcr' := creach_unmark h hcr
        rcases List.mem_append.mp hc with hcn | hcr''
        · exact Or.inr ⟨i, List.mem_cons_self _ _, CReach.step i n c j h hdf hcn hcr'⟩
        · exact Or.inr ⟨c, List.mem_cons_of_mem _ hcr'', hcr'⟩
    · rintro (hdj | ⟨c, hc, hcr⟩)
      · left
        rw [dirtyB_mark h, hdj]
        rfl
      · by_cases hji : j = i
        · subst hji
          left
          rw [dirtyB_mark h]
          simp
        · rcases List.mem_cons.mp hc with rfl | hc'
          · cases hcr with
            | here _ m hm _ => exact absurd rfl hji
            | step _ m d _ hm _ hdc hk =>
              rw [h] at hm
              cases hm
              rcases creach_cut h hk hji with h1 | ⟨d', hd', h2⟩
              · exact Or.inr ⟨d, List.mem_append.mpr (Or.inl hdc), h1⟩
              · exact Or.inr ⟨d', List.mem_append.mpr (Or.inl hd'), h2⟩
          · rcases creach_cut h hcr hji with h1 | ⟨d', hd', h2⟩
            · exact Or.inr ⟨c, List.mem_append.mpr (Or.inr hc'), h1⟩
            · exact Or.inr ⟨d', List.mem_append.mpr (Or.inl hd'), h2⟩

theorem invalidate_frame (s : GState) (stack : List Nat) (j : Nat)
    (h : ¬ ∃ c ∈ stack, CReach s c j) :
    getN (invalidate s stack) j = getN s j := by
  induction s, stack using invalidate.induct with
  | case1 s => rw [invalidate]
  | case2 s i rest hni ih =>
    rw [invalidate_cons_none hni]
    exact ih (fun ⟨c, hc, hcr⟩ => h ⟨c, List.mem_cons_of_mem _ hc, hcr⟩)
  | case3 s i rest n hni hd ih =>
    rw [invalidate_cons_dirty hni hd]
    exact ih (fun ⟨c, hc, hcr⟩ => h ⟨c, List.mem_cons_of_mem _ hc, hcr⟩)
  | case4 s i rest n hni hd ih =>
    have hdf : n.isDirty = false := by simpa using hd
    rw [invalidate_cons_clean hni hdf]
    have hji : j ≠ i := by
      intro he
      subst he
      exact h ⟨j, List.mem_cons_self _ _, CReach.here j n hni hdf⟩
    rw [ih, getN_setN_other _ _ hji]
    intro ⟨c, hc, hcr⟩
    have hcr' := creach_unmark hni hcr
    rcases List.mem_append.mp hc with hcn | hcr''
    · exact h ⟨i, List.mem_cons_self _ _, CReach.step i n c j hni hdf hcn hcr'⟩
    · exact h ⟨c, List.mem_cons_of_mem _ hcr'', hcr'⟩

/-! Transfer of dirtiness / reachability between states that agree on every
node's dirty flag and child list (`setBaseValueOp` only rewrites the base
and cached values before invalidating). -/

theorem dirtyB_of_sameDC {s s' : GState}
    (h : ∀ j, (getN s j).map (fun n => (n.isDirty, n.children))
      = (getN s' j).map (fun n => (n.isDirty, n.children))) (j : Nat) :
    dirtyB s j = dirtyB s' j := by
  have hj := h j
  unfold dirtyB
  cases h1 : getN s j with
  | none =>
    rw [h1] at hj
    cases h2 : getN s' j with
    | none => rfl
    | some m => rw [h2] at hj; cases hj
  | some m =>
    rw [h1] at hj
    cases h2 : getN s' j with
    | none => rw [h2] at hj; cases hj
    | some m' =>
      rw [h2] at hj
      simp only [Option.map_some', Option.some.injEq, Prod.mk.injEq] at hj
      exact hj.1

theorem creach_of_sameDC {s s' : GState}
    (h : ∀ j, (getN s j).map (fun n => (n.isDirty, n.children))
      = (getN s' j).map (fun n => (n.isDirty, n.children))) :
    ∀ {c j : Nat}, CReach s c j → CReach s' c j := by
  intro c j hcr
  induction hcr with
  | here c m hm hcl =>
    have hc := h c
    rw [hm] at hc
    cases h2 : getN s' c with
    | none => rw [h2] at hc; cases hc
    | some m' =>
      rw [h2] at hc
      simp only [Option.map_some', Option.some.injEq, Prod.mk.injEq] at hc
      exact CReach.here c m' h2 (hc.1 ▸ hcl)
  | step c m d k hm hcl hd _ ih =>
    have hc := h c
    rw [hm] at hc
    cases h2 : getN s' c with
    | none => rw [h2] at hc; cases hc
    | some m' =>
      rw [h2] at hc
      simp only [Option.map_some', Option.some.injEq, Prod.mk.injEq] at hc
      exact CReach.step c m' d k h2 (hc.1 ▸ hcl) (hc.2 ▸ hd) ih

theorem reach_of_sameDC {s s' : GState}
    (h : ∀ j, (getN s j).map (fun n => (n.isDirty, n.children))
      = (getN s' j).map (fun n => (n.isDirty, n.children))) :
    ∀ {c j : Nat}, Reach s c j → Reach s' c j := by
  intro c j hr
  induction hr with
  | head c m j hm hj =>
    have hc := h c
    rw [hm] at hc
    cases h2 : getN s' c with
    | none => rw [h2] at hc; cases hc
    | some m' =>
      rw [h2] at hc
      simp only [Option.map_some', Option.some.injEq, Prod.mk.injEq] at hc
      exact Reach.head c m' j h2 (hc.2 ▸ hj)
  | step c m d k hm hd _ ih =>
    have hc := h c
    rw [hm] at hc
    cases h2 : getN s' c with
    | none => rw [h2] at hc; cases hc
    | some m' =>
      rw [h2] at hc
      simp only [Option.map_some', Option.some.injEq, Prod.mk.injEq] at hc
      exact Reach.step c m' d k h2 (hc.2 ▸ hd) ih

theorem sameDC_setN {s : GState} {i : Nat} {n : Node} (n1 : Node) (hn : getN s i = some n)
    (hd : n1.isDirty = n.isDirty) (hc : n1.children = n.children) (j : Nat) :
    (getN s j).map (fun n => (n.isDirty, n.children))
      = (getN (setN s i n1) j).map (fun n => (n.isDirty, n.children)) := by
  by_cases hji : j = i
  · subst hji
    rw [hn, getN_setN_same hn]
    simp [hd, hc]
  · rw [getN_setN_other _ _ hji]

/-! Bridges between plain reachability and the clean-reachability that the
traversal actually marks, under down-closed dirtiness. -/

theorem reach_dirty {s : GState} (hdc : DownClosed s) :
    ∀ {i j : Nat}, Reach s i j → dirtyB s i = true → dirtyB s j = true := by
  intro i j hr
  induction hr with
  | head i n j hn hj =>
    intro hdi
    have hni : n.isDirty = true := by
      unfold dirtyB at hdi
      rw [hn] at hdi
      exact hdi
    exact hdc i n hn hni j hj
  | step i n d k hn hd _ ih =>
    intro hdi
    have hni : n.isDirty = true := by
      unfold dirtyB at hdi
      rw [hn] at hdi
      exact hdi
    exact ih (hdc i n hn hni d hd)

theorem creach_to_reach {s : GState} :
    ∀ {c j : Nat}, CReach s c j → c = j ∨ Reach s c j := by
  intro c j hcr
  induction hcr with
  | here c m _ _ => exact Or.inl rfl
  | step c m d k hm _ hd _ ih =>
    rcases ih with he | hr
    · exact Or.inr (he ▸ Reach.head c m d hm hd)
    · exact Or.inr (Reach.step c m d k hm hd hr)

theorem reach_to_creach {s : GState} (hwf : WF s) (hdc : DownClosed s) :
    ∀ {i j : Nat}, Reach s i j →
      dirtyB s j = true ∨ ∃ n, getN s i = some n ∧ ∃ c ∈ n.children, CReach s c j := by
  intro i j hr
  induction hr with
  | head i n j hn hj =>
    by_cases hdj : dirtyB s j = true
    · exact Or.inl hdj
    · right
      refine ⟨n, hn, j, hj, ?_⟩
      have hjl : j < s.nodes.length := hwf i n hn j hj
      obtain ⟨nj, hnj⟩ : ∃ nj, getN s j = some nj := by
        unfold getN
        exact ⟨_, List.getElem?_eq_getElem hjl⟩
      have : nj.isDirty = false := by
        unfold dirtyB at hdj
        rw [hnj] at hdj
        simpa using hdj
      exact CReach.here j nj hnj this
  | step i n d k hn hd hr ih =>
    rcases ih with hdk | ⟨nd, hnd, c, hc, hcr⟩
    · exact Or.inl hdk
    · by_cases hdd : dirtyB s d = true
      · exact Or.inl (reach_dirty hdc hr hdd)
      · right
        refine ⟨n, hn, d, hd, ?_⟩
        have : nd.isDirty = false := by
          unfold dirtyB at hdd
          rw [hnd] at hdd
          simpa using hdd
        exact CReach.step d nd c k hnd this hc hcr

/-! Unfolding equations for the mutating node operations. -/

theorem setBaseValueOp_none {s : GState} {i : Nat} (v : ℚ) (h : getN s i = none) :
    setBaseValueOp s i v = s := by
  unfold setBaseValueOp
  rw [h]

theorem setBaseValueOp_same {s : GState} {i : Nat} {n : Node} {v : ℚ}
    (h : getN s i = some n) (he : n.baseValue = v) :
    setBaseValueOp s i v = s := by
  unfold setBaseValueOp
  rw [h]
  simp [he]

theorem setBaseValueOp_diff_base {s : GState} {i : Nat} {n : Node} {v : ℚ}
    (h : getN s i = some n) (he : ¬ n.baseValue = v)
    (ht : (n.type == NodeType.base || n.type == NodeType.history) = true) :
    setBaseValueOp s i v =
      invalidate (setN s i { n with baseValue := v, cachedValue := v }) n.children := by
  unfold setBaseValueOp
  rw [h]
  simp [he, ht]

theorem markDirtyOp_none {s : GState} {i : Nat} (h : getN s i = none) :
    markDirtyOp s i = s := by
  unfold markDirtyOp
  rw [h]

theorem markDirtyOp_dirty {s : GState} {i : Nat} {n : Node}
    (h : getN s i = some n) (hd : n.isDirty = true) :
    markDirtyOp s i = s := by
  unfold markDirtyOp
  rw [h]
  simp [hd]

theorem markDirtyOp_clean {s : GState} {i : Nat} {n : Node}
    (h : getN s i = some n) (hd : n.isDirty = false) :
    markDirtyOp s i = invalidate (setN s i { n with isDirty := true }) n.children := by
  unfold markDirtyOp
  rw [h]
  simp [hd]

/-! Soundness of the decidable graph predicates. -/

theorem mem_of_getN {s : GState} {i : Nat} {n : Node} (h : getN s i = some n) :
    n ∈ s.nodes := by
  unfold getN at h
  exact List.getElem?_mem h

theorem downClosedB_sound {s : GState} (h : downClosedB s = true) : DownClosed s := by
  intro i n hn hd j hj
  have hmem := mem_of_getN hn
  have := (List.all_eq_true.mp h) n hmem
  rcases Bool.or_eq_true_iff.mp this with h1 | h2
  · rw [hd] at h1
    cases h1
  · exact (List.all_eq_true.mp h2) j hj

theorem wfB_sound {s : GState} (h : wfB s = true) : WF s := by
  intro i n hn j hj
  have hmem := mem_of_getN hn
  have := (List.all_eq_true.mp h) n hmem
  exact of_decide_eq_true ((List.all_eq_true.mp this) j hj)

/-- C4 (amended): provided dirtiness is down-closed along child edges,
`SetBaseValue` with a fresh value marks exactly the previously-dirty nodes
plus everything reachable from the changed node; any node with no path from
the changed node is untouched entirely (dirty flag and cache included); and
an unchanged value is a complete no-op. -/
theorem setBaseValue_push (s : GState) (i : Nat) (n : Node) (v : ℚ)
    (hwf : WF s) (hdc : DownClosed s) (hn : getN s i = some n)
    (hty : n.type = NodeType.base) :
    (n.baseValue = v → setBaseValueOp s i v = s) ∧
    (n.baseValue ≠ v →
      (∀ j, dirtyB (setBaseValueOp s i v) j = true ↔ (dirtyB s j = true ∨ Reach s i j)) ∧
      (∀ j, j ≠ i → ¬ Reach s i j → getN (setBaseValueOp s i v) j = getN s j)) := by
  constructor
  · intro he
    exact setBaseValueOp_same hn he
  · intro hne
    have hbt : (n.type == NodeType.base || n.type == NodeType.history) = true := by
      simp [hty]
    have heq := setBaseValueOp_diff_base hn hne hbt
    have hsame := sameDC_setN { n with baseValue := v, cachedValue := v } hn rfl rfl
    constructor
    · intro j
      rw [heq, invalidate_dirty_iff]
      rw [← dirtyB_of_sameDC hsame j]
      constructor
      · rintro (hd | ⟨c, hc, hcr⟩)
        · exact Or.inl hd
        · have hcr' : CReach s c j :=
            creach_of_sameDC (fun j => (hsame j).symm) hcr
          rcases creach_to_reach hcr' with he | hr
          · exact Or.inr (he ▸ Reach.head i n c hn hc)
          · exact Or.inr (Reach.step i n c j hn hc hr)
      · rintro (hd | hr)
        · exact Or.inl hd
        · rcases reach_to_creach hwf hdc hr with hdj | ⟨n', hn', c, hc, hcr⟩
          · exact Or.inl hdj
          · rw [hn] at hn'
            cases hn'
            exact Or.inr ⟨c, hc, creach_of_sameDC hsame hcr⟩
    · intro j hji hnr
      rw [heq, invalidate_frame, getN_setN_other _ _ hji]
      rintro ⟨c, hc, hcr⟩
      have hcr' : CReach s c j := creach_of_sameDC (fun j => (hsame j).symm) hcr
      rcases creach_to_reach hcr' with he | hr
      · exact hnr (he ▸ Reach.head i n c hn hc)
      · exact hnr (Reach.step i n c j hn hc hr)

/-- C4 counterexample state facts: in `cexS` (reachable through the public
node API), node 0 is Base with value 10, node 2 is Derived and reachable
from node 0 through child edges, yet `SetBaseValue(0, 5)` leaves node 2
clean — the propagation stopped at the already-dirty node 1. -/
theorem setBaseValue_push_counterexample :
    (getN cexS 0).map Node.type = some NodeType.base ∧
    (getN cexS 0).map Node.baseValue = some 10 ∧
    (getN cexS 2).map Node.type = some NodeType.derived ∧
    Reach cexS 0 2 ∧
    dirtyB (setBaseValueOp cexS 0 5) 2 = false := by
  refine ⟨rfl, rfl, rfl, ?_, ?_⟩
  · exact Reach.step 0 _ 1 2 rfl (by decide) (Reach.head 1 _ 2 rfl (by decide))
  · have e1 : setBaseValueOp cexS 0 5 =
        invalidate (setN cexS 0
          { mkStatNode "A" "A" 10 NodeType.base with
              baseValue := 5, cachedValue := 5, children := [1] }) [1] :=
      setBaseValueOp_diff_base
        (show getN cexS 0 = some { mkStatNode "A" "A" 10 NodeType.base with children := [1] }
          from rfl) (by decide) rfl
    have e2 : getN (setN cexS 0
        { mkStatNode "A" "A" 10 NodeType.base with
            baseValue := 5, cachedValue := 5, children := [1] }) 1 =
        some { mkStatNode "B" "B" 0 NodeType.derived with
            parents := [0], children := [2], isDirty := true } := rfl
    rw [e1, invalidate_cons_dirty e2 rfl, invalidate_nil]
    rfl

/-- Witness for `setBaseValue_push` on the concrete down-closed graph
`w4state`. -/
theorem setBaseValue_push_witness :
    setBaseValueOp w4state 0 10 = w4state ∧
    dirtyB (setBaseValueOp w4state 0 5) 1 = true := by
  have h := setBaseValue_push w4state 0 { mkStatNode "A" "A" 10 NodeType.base with children := [1] }
  have h10 := (h 10 (wfB_sound (by decide)) (downClosedB_sound (by decide)) rfl rfl).1 (by norm_num [mkStatNode])
  have h5 := ((h 5 (wfB_sound (by decide)) (downClosedB_sound (by decide)) rfl rfl).2
    (by norm_num [mkStatNode])).1 1
  refine ⟨h10, ?_⟩
  rw [h5]
  exact Or.inr (Reach.head 0 _ 1 rfl (by decide))

/-- C6 (amended): `MarkDirty` on an already-dirty node is a complete no-op;
and provided dirtiness is down-closed along child edges, the resulting dirty
set still equals the old dirty set together with the node and all of its
transitive descendants (they were already dirty). -/
theorem markDirty_idempotent (s : GState) (i : Nat) (n : Node)
    (hdc : DownClosed s) (hn : getN s i = some n) (hd : n.isDirty = true) :
    markDirtyOp s i = s ∧
    (∀ j, dirtyB (markDirtyOp s i) j = true ↔
      (dirtyB s j = true ∨ j = i ∨ Reach s i j)) := by
  have hno : markDirtyOp s i = s := markDirtyOp_dirty hn hd
  refine ⟨hno, ?_⟩
  intro j
  rw [hno]
  constructor
  · exact fun h => Or.inl h
  · rintro (h | he | hr)
    · exact h
    · subst he
      unfold dirtyB
      rw [hn]
      exact hd
    · refine reach_dirty hdc hr ?_
      unfold dirtyB
      rw [hn]
      exact hd

/-- C6 counterexample state facts: in `cexS`, node 1 is dirty with clean
descendant 2; `MarkDirty(1)` is a no-op, so its resulting dirty set lacks
the descendant 2 that marking node 1 and each of its transitive descendants
independently would contain. -/
theorem markDirty_idempotent_counterexample :
    dirtyB cexS 1 = true ∧
    markDirtyOp cexS 1 = cexS ∧
    Reach cexS 1 2 ∧
    dirtyB (markDirtyOp cexS 1) 2 = false := by
  refine ⟨rfl, rfl, ?_, rfl⟩
  exact Reach.head 1 _ 2 rfl (by decide)

/-- Witness for `markDirty_idempotent` on the concrete down-closed graph
`w4state` (node 1 is dirty there). -/
theorem markDirty_idempotent_witness :
    markDirtyOp w4state 1 = w4state ∧ dirtyB (markDirtyOp w4state 1) 1 = true := by
  have h := markDirty_idempotent w4state 1
    { mkStatNode "B" "B" 0 NodeType.derived with parents := [0], isDirty := true }
    (downClosedB_sound (by decide)) rfl rfl
  refine ⟨h.1, ?_⟩
  rw [(h.2 1)]
  exact Or.inr (Or.inl rfl)

/-! Unfolding equations for the pull. -/

theorem getValue_zero (env : Env) (now : ℚ) (s : GState) (i : Nat) :
    getValue 0 env now s i = (0, s, 0) := rfl

theorem getValue_none {s : GState} {i : Nat} (fuel : Nat) (env : Env) (now : ℚ)
    (h : getN s i = none) :
    getValue (fuel + 1) env now s i = (0, s, 0) := by
  unfold getValue
  rw [h]

theorem getValue_baseHist {s : GState} {i : Nat} {n : Node} (fuel : Nat) (env : Env) (now : ℚ)
    (h : getN s i = some n) (ht : (n.type == NodeType.base || n.type == NodeType.history) = true) :
    getValue (fuel + 1) env now s i = (n.baseValue, s, 0) := by
  unfold getValue
  rw [h]
  simp [ht]

theorem getValue_clean {s : GState} {i : Nat} {n : Node} (fuel : Nat) (env : Env) (now : ℚ)
    (h : getN s i = some n) (ht : (n.type == NodeType.base || n.type == NodeType.history) = false)
    (hd : n.isDirty = false) :
    getValue (fuel + 1) env now s i = (n.cachedValue, s, 0) := by
  unfold getValue
  rw [h]
  simp [ht, hd]

theorem getValue_dirty {s : GState} {i : Nat} {n n1 : Node} (fuel : Nat) (env : Env) (now : ℚ)
    (h : getN s i = some n) (ht : (n.type == NodeType.base || n.type == NodeType.history) = false)
    (hd : n.isDirty = true)
    (h1 : getN (pullIds (getValue fuel env now) s (activeIds env n)).2.1 i = some n1) :
    getValue (fuel + 1) env now s i =
      (applyCalc n1 now (pullIds (getValue fuel env now) s (activeIds env n)).1,
       setN (pullIds (getValue fuel env now) s (activeIds env n)).2.1 i
         { n1 with
           cachedValue := applyCalc n1 now (pullIds (getValue fuel env now) s (activeIds env n)).1,
           isDirty := false },
       (pullIds (getValue fuel env now) s (activeIds env n)).2.2 + calcCount n1.calcKind) := by
  unfold getValue
  rw [h]
  simp only [ht, Bool.false_eq_true, if_false, hd, Bool.not_true, if_neg]
  rw [h1]

theorem pullIds_nil (gv : GState → Nat → ℚ × GState × Nat) (s : GState) :
    pullIds gv s [] = ([], s, 0) := rfl

theorem pullIds_cons_none {s : GState} {a : Nat} (gv : GState → Nat → ℚ × GState × Nat)
    (rest : List Nat) (h : getN s a = none) :
    pullIds gv s (a :: rest) = pullIds gv s rest := by
  conv_lhs => rw [pullIds]
  rw [h]

theorem pullIds_cons_some {s : GState} {a : Nat} {m : Node} (gv : GState → Nat → ℚ × GState × Nat)
    (rest : List Nat) (h : getN s a = some m) :
    pullIds gv s (a :: rest) =
      ((gv s a).1 :: (pullIds gv (gv s a).2.1 rest).1,
       (pullIds gv (gv s a).2.1 rest).2.1,
       (gv s a).2.2 + (pullIds gv (gv s a).2.1 rest).2.2) := by
  conv_lhs => rw [pullIds]
  rw [h]

/-! The pull touches nothing but cached values and dirty flags, and keeps
the node count. -/

theorem getValue_strip :
    ∀ (fuel : Nat) (env : Env) (now : ℚ) (s : GState) (i j : Nat),
      (getN (getValue fuel env now s i).2.1 j).map stripCache = (getN s j).map stripCache := by
  intro fuel
  induction fuel with
  | zero => intro env now s i j; rfl
  | succ fuel ih =>
    intro env now s i j
    have hpull : ∀ (ids : List Nat) (s : GState) (j : Nat),
        (getN (pullIds (getValue fuel env now) s ids).2.1 j).map stripCache
          = (getN s j).map stripCache := by
      intro ids
      induction ids with
      | nil => intro s j; rfl
      | cons a rest ihl =>
        intro s j
        cases ha : getN s a with
        | none => rw [pullIds_cons_none _ _ ha]; exact ihl s j
        | some m =>
          rw [pullIds_cons_some _ _ ha]
          simp only
          rw [ihl, ih]
    cases h : getN s i with
    | none => rw [getValue_none fuel env now h]
    | some n =>
      cases ht : (n.type == NodeType.base || n.type == NodeType.history) with
      | true => rw [getValue_baseHist fuel env now h ht]
      | false =>
        cases hd : n.isDirty with
        | false => rw [getValue_clean fuel env now h ht hd]
        | true =>
          cases h1 : getN (pullIds (getValue fuel env now) s (activeIds env n)).2.1 i with
          | none =>
            unfold getValue
            rw [h]
            simp only [ht, Bool.false_eq_true, if_false, hd, Bool.not_true, if_neg]
            rw [h1]
            simp only
            exact hpull _ s j
          | some n1 =>
            rw [getValue_dirty fuel env now h ht hd h1]
            simp only
            by_cases hji : j = i
            · subst hji
              have h1' := hpull (activeIds env n) s j
              rw [h1, h] at h1'
              simp only [Option.map_some', Option.some.injEq] at h1'
              rw [getN_setN_same h1, h]
              simp only [Option.map_some', Option.some.injEq]
              rw [← h1']
              rfl
            · rw [getN_setN_other _ _ hji]
              exact hpull _ s j

theorem pullIds_strip (fuel : Nat) (env : Env) (now : ℚ) :
    ∀ (ids : List Nat) (s : GState) (j : Nat),
      (getN (pullIds (getValue fuel env now) s ids).2.1 j).map stripCache
        = (getN s j).map stripCache := by
  intro ids
  induction ids with
  | nil => intro s j; rfl
  | cons a rest ihl =>
    intro s j
    cases ha : getN s a with
    | none => rw [pullIds_cons_none _ _ ha]; exact ihl s j
    | some m =>
      rw [pullIds_cons_some _ _ ha]
      simp only
      rw [ihl, getValue_strip]

theorem getValue_length (fuel : Nat) (env : Env) (now : ℚ) (s : GState) (i : Nat) :
    (getValue fuel env now s i).2.1.nodes.length = s.nodes.length := by
  have key : ∀ j, ((getN (getValue fuel env now s i).2.1 j).map stripCache).isSome
      = ((getN s j).map stripCache).isSome := by
    intro j
    rw [getValue_strip]
  by_contra hne
  rcases Nat.lt_or_ge (getValue fuel env now s i).2.1.nodes.length s.nodes.length with hlt | hge
  · have h1 := key (getValue fuel env now s i).2.1.nodes.length
    rw [getN, List.getElem?_eq_none (Nat.le_refl _)] at h1
    unfold getN at h1
    rw [List.getElem?_eq_getElem hlt] at h1
    simp at h1
  · have hlt2 : s.nodes.length < (getValue fuel env now s i).2.1.nodes.length := by omega
    have h1 := key s.nodes.length
    rw [getN, List.getElem?_eq_getElem hlt2] at h1
    unfold getN at h1
    rw [List.getElem?_eq_none (Nat.le_refl _)] at h1
    simp at h1

theorem pullIds_length (fuel : Nat) (env : Env) (now : ℚ) (ids : List Nat) (s : GState) :
    (pullIds (getValue fuel env now) s ids).2.1.nodes.length = s.nodes.length := by
  induction ids generalizing s with
  | nil => rfl
  | cons a rest ihl =>
    cases ha : getN s a with
    | none => rw [pullIds_cons_none _ _ ha]; exact ihl s
    | some m =>
      rw [pullIds_cons_some _ _ ha]
      simp only
      rw [ihl, getValue_length]

/-- C3: a dirty Derived node with calculation function `f` computes
`f` of the parent values pulled at that moment (counting one invocation of
`f`), and a second `GetValue` without intervening mutation returns the same
number from the cache, leaves the state untouched, and invokes no
calculation function at all. -/
theorem derived_pull_caches (fuel : Nat) (env : Env) (now : ℚ) (s : GState) (i : Nat)
    (n : Node) (f : List ℚ → ℚ)
    (hn : getN s i = some n) (hty : n.type = NodeType.derived) (hd : n.isDirty = true)
    (hf : n.calcKind = CalcKind.fn f) :
    (∃ n1, getN (pullIds (getValue fuel env now) s (activeIds env n)).2.1 i = some n1 ∧
      n1.calcKind = CalcKind.fn f ∧
      getValue (fuel + 1) env now s i =
        (f (pullIds (getValue fuel env now) s (activeIds env n)).1,
         setN (pullIds (getValue fuel env now) s (activeIds env n)).2.1 i
           { n1 with
             cachedValue := f (pullIds (getValue fuel env now) s (activeIds env n)).1,
             isDirty := false },
         (pullIds (getValue fuel env now) s (activeIds env n)).2.2 + 1)) ∧
    (∀ (m : Nat) (env2 : Env) (now2 : ℚ),
      getValue (m + 1) env2 now2 (getValue (fuel + 1) env now s i).2.1 i =
        ((getValue (fuel + 1) env now s i).1, (getValue (fuel + 1) env now s i).2.1, 0)) := by
  have ht : (n.type == NodeType.base || n.type == NodeType.history) = false := by
    rw [hty]
    rfl
  have hs := pullIds_strip fuel env now (activeIds env n) s i
  rw [hn] at hs
  obtain ⟨n1, h1, hstrip⟩ :
      ∃ n1, getN (pullIds (getValue fuel env now) s (activeIds env n)).2.1 i = some n1 ∧
        stripCache n1 = stripCache n := by
    cases hx : getN (pullIds (getValue fuel env now) s (activeIds env n)).2.1 i with
    | none => rw [hx] at hs; cases hs
    | some n1 =>
      rw [hx] at hs
      simp only [Option.map_some', Option.some.injEq] at hs
      exact ⟨n1, rfl, hs⟩
  have hck : n1.calcKind = CalcKind.fn f := by
    have hck0 := congrArg Node.calcKind hstrip
    simp only [stripCache] at hck0
    rw [hck0, hf]
  have hty1 : n1.type = NodeType.derived := by
    have hty0 := congrArg Node.type hstrip
    simp only [stripCache] at hty0
    rw [hty0, hty]
  have hgv := getValue_dirty fuel env now hn ht hd h1
  have happ : applyCalc n1 now (pullIds (getValue fuel env now) s (activeIds env n)).1
      = f (pullIds (getValue fuel env now) s (activeIds env n)).1 := by
    unfold applyCalc
    rw [hck]
  have hcc : calcCount n1.calcKind = 1 := by
    rw [hck]
    rfl
  have hmain :
      getValue (fuel + 1) env now s i =
        (f (pullIds (getValue fuel env now) s (activeIds env n)).1,
         setN (pullIds (getValue fuel env now) s (activeIds env n)).2.1 i
           { n1 with
             cachedValue := f (pullIds (getValue fuel env now) s (activeIds env n)).1,
             isDirty := false },
         (pullIds (getValue fuel env now) s (activeIds env n)).2.2 + 1) := by
    rw [hgv, happ, hcc]
  refine ⟨⟨n1, h1, hck, hmain⟩, ?_⟩
  intro m env2 now2
  have hset : getN (getValue (fuel + 1) env now s i).2.1 i =
      some { n1 with
        cachedValue := f (pullIds (getValue fuel env now) s (activeIds env n)).1,
        isDirty := false } := by
    rw [hmain]
    exact getN_setN_same h1
  have ht2 : (({ n1 with
      cachedValue := f (pullIds (getValue fuel env now) s (activeIds env n)).1,
      isDirty := false } : Node).type == NodeType.base
        || ({ n1 with
          cachedValue := f (pullIds (getValue fuel env now) s (activeIds env n)).1,
          isDirty := false } : Node).type == NodeType.history) = false := by
    show (n1.type == NodeType.base || n1.type == NodeType.history) = false
    rw [hty1]
    rfl
  rw [getValue_clean m env2 now2 hset ht2 rfl]
  rw [hmain]

/-- C5: with one unconditional parent worth 100 and one conditional parent
worth 50, the default-sum Derived node computes 100 + 50·[predicate], i.e.
100 while the predicate is false and, after flipping it and `MarkDirty()`,
150; a conditional parent contributes exactly when its predicate evaluates
true at computation time. -/
theorem conditional_parent_boundary :
    (∀ (cond : Env → Bool) (env : Env),
      (getValue 2 env 0 (c5state cond) 2).1 = 100 + (if cond env then 50 else 0)) ∧
    (getValue 2 envFalse 0 (c5state flagCond) 2).1 = 100 ∧
    (getValue 2 envTrue 0
      (markDirtyOp ((getValue 2 envFalse 0 (c5state flagCond) 2).2.1) 2) 2).1 = 150 := by
  have hgen : ∀ (cond : Env → Bool) (env : Env),
      (getValue 2 env 0 (c5state cond) 2).1 = 100 + (if cond env then 50 else 0) := by
    intro cond env
    cases h : cond env with
    | false =>
      norm_num +decide [getValue, pullIds, activeIds, condActive, applyCalc, getN, setN,
        c5state, c5base, addParent, addConditionalParent, mkStatNode, h, calcCount,
        reduceCtorEq]
    | true =>
      norm_num +decide [getValue, pullIds, activeIds, condActive, applyCalc, getN, setN,
        c5state, c5base, addParent, addConditionalParent, mkStatNode, h, calcCount,
        reduceCtorEq]
  refine ⟨hgen, ?_, ?_⟩
  · rw [hgen flagCond envFalse]
    norm_num [flagCond, envFalse]
  · norm_num +decide [getValue, pullIds, activeIds, condActive, applyCalc, getN, setN,
      c5state, c5base, addParent, addConditionalParent, mkStatNode, flagCond,
      envFalse, envTrue, markDirtyOp, invalidate_nil, calcCount, reduceCtorEq]

/-- Witness for `derived_pull_caches` on the concrete graph `w3state`: the
second pull returns the same number, with zero calculation-function
invocations. -/
theorem derived_pull_caches_witness :
    (getValue 6 envFalse 0 ((getValue 2 envFalse 0 w3state 1).2.1) 1).2.2 = 0 ∧
    (getValue 6 envFalse 0 ((getValue 2 envFalse 0 w3state 1).2.1) 1).1
      = (getValue 2 envFalse 0 w3state 1).1 := by
  obtain ⟨-, h2⟩ := derived_pull_caches 1 envFalse 0 w3state 1
    { mkStatNode "d" "d" 0 NodeType.derived with calcKind := CalcKind.fn w3calc, parents := [0] }
    w3calc rfl rfl rfl rfl
  have h := h2 5 envFalse 0
  exact ⟨by rw [h], by rw [h]⟩

/-- C10: a conditional parent whose condition closure is null never
contributes to the value computation (the pull treats it as inactive), yet
`GetEdgeStates` reports the very same edge as active — the two surfaces
disagree on null-condition edges.  Concretely, in `c10state` the derived
node computes 0 (the parent worth 50 is dropped) while the edge snapshot
lists the edge as active. -/
theorem null_condition_disagreement :
    (∀ (s : GState) (i : Nat) (n : Node) (cp : CondParent) (env : Env),
      getN s i = some n → cp ∈ n.condParents → cp.cond = none →
        cp ∉ n.condParents.filter (fun cp => condActive cp env) ∧
        ∀ pn, getN s cp.node = some pn →
          EdgeState.mk pn.id n.id true true cp.condDesc ∈ getEdgeStates s env i) ∧
    (∀ env : Env, (getValue 2 env 0 c10state 1).1 = 0) ∧
    (∀ env : Env, getEdgeStates c10state env 1 =
      [EdgeState.mk "p" "d" true true "null-cond"]) := by
  refine ⟨?_, fun env => rfl, fun env => rfl⟩
  intro s i n cp env hn hcp hnone
  constructor
  · intro hmem
    have hact := (List.mem_filter.mp hmem).2
    simp [condActive, hnone] at hact
  · intro pn hpn
    unfold getEdgeStates
    rw [hn]
    apply List.mem_append.mpr
    right
    apply List.mem_filterMap.mpr
    refine ⟨cp, hcp, ?_⟩
    rw [hpn, hnone]
    rfl

/-- Witness for `null_condition_disagreement` at the concrete null-condition
edge of `c10state`. -/
theorem null_condition_disagreement_witness :
    (⟨0, none, "null-cond"⟩ : CondParent) ∉
      ({ mkStatNode "d" "d" 0 NodeType.derived with
          condParents := [⟨0, none, "null-cond"⟩], isDirty := true } : Node).condParents.filter
        (fun cp => condActive cp envTrue) ∧
    EdgeState.mk "p" "d" true true "null-cond" ∈ getEdgeStates c10state envTrue 1 := by
  obtain ⟨h1, h2⟩ := null_condition_disagreement.1 c10state 1
    { mkStatNode "d" "d" 0 NodeType.derived with
        condParents := [⟨0, none, "null-cond"⟩], isDirty := true }
    ⟨0, none, "null-cond"⟩ envTrue rfl (List.mem_singleton.mpr rfl) rfl
  exact ⟨h1, h2 { mkStatNode "p" "p" 50 NodeType.base with children := [1] } rfl⟩

/-! ### C7: event-ledger capacity -/

theorem trimEvents_eq_drop (l : List HistEvent) :
    trimEvents l = l.drop (l.length - MAX_EVENTS) := by
  induction l with
  | nil => rfl
  | cons e t ih =>
    rw [trimEvents]
    by_cases h : MAX_EVENTS < (e :: t).length
    · rw [if_pos h, ih]
      simp only [List.length_cons] at h ⊢
      have harith : t.length + 1 - MAX_EVENTS = (t.length - MAX_EVENTS) + 1 := by omega
      rw [harith, List.drop_succ_cons]
    · rw [if_neg h]
      simp only [List.length_cons] at h
      have : t.length + 1 - MAX_EVENTS = 0 := by omega
      simp only [List.length_cons, this, List.drop_zero]

theorem countP_replicate {α : Type} (p : α → Bool) (n : Nat) (a : α) :
    (List.replicate n a).countP p = if p a then n else 0 := by
  induction n with
  | zero => simp
  | succ n ih =>
    rw [List.replicate_succ, List.countP_cons, ih]
    cases h : p a <;> simp [h]

theorem iterRecordAt_stateC7 (k : Nat) :
    ∀ (b : Bool) (E : List HistEvent),
      iterRecordAt k (stateC7 b E) =
        stateC7 (b || decide (0 < k)) (E ++ List.replicate k ⟨1, 0, ""⟩) := by
  induction k with
  | zero =>
    intro b E
    simp [iterRecordAt]
  | succ k ih =>
    intro b E
    have hstep : recordEventAtOn (stateC7 b E) 0 1 0 ""
        = stateC7 true (E ++ [(⟨1, 0, ""⟩ : HistEvent)]) := by
      cases b with
      | true => rfl
      | false =>
        show markDirtyOp (setN (stateC7 false E) 0
          { setIsHistoryNode (mkHistoryNode "h" "h" 4) true with
              isDirty := false, events := E ++ [(⟨1, 0, ""⟩ : HistEvent)] }) 0
          = stateC7 true (E ++ [(⟨1, 0, ""⟩ : HistEvent)])
        rw [markDirtyOp_clean (show getN (setN (stateC7 false E) 0
          { setIsHistoryNode (mkHistoryNode "h" "h" 4) true with
              isDirty := false, events := E ++ [(⟨1, 0, ""⟩ : HistEvent)] }) 0
          = some { setIsHistoryNode (mkHistoryNode "h" "h" 4) true with
              isDirty := false, events := E ++ [(⟨1, 0, ""⟩ : HistEvent)] } from rfl) rfl]
        rw [show ({ setIsHistoryNode (mkHistoryNode "h" "h" 4) true with
            isDirty := false, events := E ++ [(⟨1, 0, ""⟩ : HistEvent)] } : Node).children
          = [] from rfl]
        rw [invalidate_nil]
        rfl
    rw [iterRecordAt, hstep, ih]
    have hflag : (true || decide (0 < k)) = (b || decide (0 < k + 1)) := by
      simp
    have hevs : (E ++ [(⟨1, 0, ""⟩ : HistEvent)]) ++ List.replicate k ⟨1, 0, ""⟩
        = E ++ List.replicate (k + 1) ⟨1, 0, ""⟩ := by
      rw [List.replicate_succ, List.append_assoc, List.singleton_append]
    rw [hflag, hevs]

/-- C7 counterexample: 1001 `RecordEventAt` calls on a fresh history node
leave 1001 retained events — `RecordEventAt` never evicts, so the
MAX_EVENTS = 1000 bound is broken and `CountRecent` over a wide window
returns 1001. -/
theorem history_capacity_counterexample :
    (getN (iterRecordAt 1001 c7node) 0).map (fun n => n.events.length) = some 1001 ∧
    (getN (iterRecordAt 1001 c7node) 0).map (fun n => countRecent n.events 0 10) = some 1001 ∧
    MAX_EVENTS = 1000 := by
  have hc : c7node = stateC7 true [] := rfl
  rw [hc, iterRecordAt_stateC7]
  refine ⟨?_, ?_, rfl⟩
  · simp [stateC7, getN]
  · simp only [stateC7, getN, setIsHistoryNode, mkHistoryNode, mkStatNode]
    simp only [List.getElem?_cons_zero, Option.map_some', Option.some.injEq,
      List.nil_append]
    rw [countRecent, countP_replicate]
    norm_num [isWithinWindow, eventAge]

theorem recordEventOn_some {s : GState} {i : Nat} {n : Node} (value now : ℚ) (ty : String)
    (hn : getN s i = some n) :
    recordEventOn s i value now ty
      = markDirtyOp
          (setN s i { n with events := trimEvents (n.events ++ [⟨value, now, ty⟩]) }) i := by
  unfold recordEventOn
  rw [hn]

/-- C7 (amended): `RecordEvent` appends and then evicts from the front until
at most MAX_EVENTS remain (FIFO), so the ledger after any `RecordEvent` is a
drop-from-the-front suffix of the appended ledger, its size is
min(old+1, MAX_EVENTS), and `CountRecent` over any window never exceeds
MAX_EVENTS.  (`RecordEventAt` never evicts — see the counterexample.) -/
theorem recordEvent_capacity (s : GState) (i : Nat) (n : Node) (value now : ℚ) (ty : String)
    (hn : getN s i = some n) :
    ∃ m, getN (recordEventOn s i value now ty) i = some m ∧
      m.events = (n.events ++ [(⟨value, now, ty⟩ : HistEvent)]).drop
        ((n.events.length + 1) - MAX_EVENTS) ∧
      m.events.length = min (n.events.length + 1) MAX_EVENTS ∧
      ∀ (w now2 : ℚ), countRecent m.events now2 w ≤ MAX_EVENTS := by
  have hE : trimEvents (n.events ++ [(⟨value, now, ty⟩ : HistEvent)])
      = (n.events ++ [(⟨value, now, ty⟩ : HistEvent)]).drop
          ((n.events.length + 1) - MAX_EVENTS) := by
    rw [trimEvents_eq_drop]
    simp [List.length_append]
  have hElen : ((n.events ++ [(⟨value, now, ty⟩ : HistEvent)]).drop
      ((n.events.length + 1) - MAX_EVENTS)).length = min (n.events.length + 1) MAX_EVENTS := by
    rw [List.length_drop]
    simp only [List.length_append, List.length_cons, List.length_nil]
    omega
  have hcount : ∀ (m : Node), m.events
        = (n.events ++ [(⟨value, now, ty⟩ : HistEvent)]).drop
            ((n.events.length + 1) - MAX_EVENTS) →
      ∀ (w now2 : ℚ), countRecent m.events now2 w ≤ MAX_EVENTS := by
    intro m hm w now2
    rw [hm]
    have h1 : countRecent ((n.events ++ [(⟨value, now, ty⟩ : HistEvent)]).drop
          ((n.events.length + 1) - MAX_EVENTS)) now2 w
        ≤ ((n.events ++ [(⟨value, now, ty⟩ : HistEvent)]).drop
          ((n.events.length + 1) - MAX_EVENTS)).length := List.countP_le_length _
    rw [hElen] at h1
    omega
  rw [recordEventOn_some value now ty hn]
  have hs' : getN (setN s i
      { n with events := trimEvents (n.events ++ [(⟨value, now, ty⟩ : HistEvent)]) }) i
      = some { n with events := trimEvents (n.events ++ [(⟨value, now, ty⟩ : HistEvent)]) } :=
    getN_setN_same hn
  rcases Bool.eq_false_or_eq_true n.isDirty with hd | hd
  case inl =>
    rw [markDirtyOp_dirty hs'
      (show ({ n with
          events := trimEvents (n.events ++ [(⟨value, now, ty⟩ : HistEvent)]) } : Node).isDirty
        = true from hd)]
    refine ⟨_, hs', ?_, ?_, ?_⟩
    · exact hE
    · show (trimEvents (n.events ++ [(⟨value, now, ty⟩ : HistEvent)])).length
        = min (n.events.length + 1) MAX_EVENTS
      rw [hE]
      exact hElen
    · exact hcount _ hE
  case inr =>
    rw [markDirtyOp_clean hs'
      (show ({ n with
          events := trimEvents (n.events ++ [(⟨value, now, ty⟩ : HistEvent)]) } : Node).isDirty
        = false from hd)]
    obtain ⟨m, hx, hstrip⟩ :
        ∃ m, getN (invalidate
          (setN (setN s i
            { n with events := trimEvents (n.events ++ [(⟨value, now, ty⟩ : HistEvent)]) }) i
            { { n with events := trimEvents (n.events ++ [(⟨value, now, ty⟩ : HistEvent)]) }
              with isDirty := true })
          ({ n with
              events := trimEvents (n.events ++ [(⟨value, now, ty⟩ : HistEvent)]) } : Node).children) i
          = some m ∧
        stripDirty m = stripDirty
          { n with events := trimEvents (n.events ++ [(⟨value, now, ty⟩ : HistEvent)]) } := by
      have hstrip0 := invalidate_strip
        (setN (setN s i
          { n with events := trimEvents (n.events ++ [(⟨value, now, ty⟩ : HistEvent)]) }) i
          { { n with events := trimEvents (n.events ++ [(⟨value, now, ty⟩ : HistEvent)]) }
            with isDirty := true })
        ({ n with
            events := trimEvents (n.events ++ [(⟨value, now, ty⟩ : HistEvent)]) } : Node).children i
      rw [getN_setN_same hs'] at hstrip0
      cases hx : getN (invalidate
          (setN (setN s i
            { n with events := trimEvents (n.events ++ [(⟨value, now, ty⟩ : HistEvent)]) }) i
            { { n with events := trimEvents (n.events ++ [(⟨value, now, ty⟩ : HistEvent)]) }
              with isDirty := true })
          ({ n with
              events := trimEvents (n.events ++ [(⟨value, now, ty⟩ : HistEvent)]) } : Node).children) i with
      | none => rw [hx] at hstrip0; cases hstrip0
      | some m =>
        rw [hx] at hstrip0
        simp only [Option.map_some', Option.some.injEq] at hstrip0
        exact ⟨m, rfl, by rw [hstrip0]; rfl⟩
    have hev : m.events = trimEvents (n.events ++ [(⟨value, now, ty⟩ : HistEvent)]) := by
      have := congrArg Node.events hstrip
      simpa [stripDirty] using this
    refine ⟨m, hx, ?_, ?_, ?_⟩
    · rw [hev, hE]
    · rw [hev, hE, hElen]
    · exact hcount m (by rw [hev, hE])

/-- Witness for `recordEvent_capacity` at a fresh single-node history
store. -/
theorem recordEvent_capacity_witness :
    ∃ m, getN (recordEventOn c7node 0 5 0 "") 0 = some m ∧
      m.events = (([] : List HistEvent) ++ [(⟨5, 0, ""⟩ : HistEvent)]).drop
        ((List.length ([] : List HistEvent) + 1) - MAX_EVENTS) ∧
      m.events.length = min (List.length ([] : List HistEvent) + 1) MAX_EVENTS ∧
      ∀ (w now2 : ℚ), countRecent m.events now2 w ≤ MAX_EVENTS :=
  recordEvent_capacity c7node 0 (setIsHistoryNode (mkHistoryNode "h" "h" 4) true) 5 0 "" rfl

/-! ### C8: decaying value -/

/-- C8 counterexample: with one event of value 1 at time 0, half-life 1 and
clock 1, the code returns `exp(-0.693)` while the spec formula gives
`2⁻¹` — and `0.693 ≠ ln 2`, so they differ. -/
theorem decaying_value_counterexample :
    getDecayingValue [⟨1, 0, ""⟩] 1 1 ≠ specDecayingValue [⟨1, 0, ""⟩] 1 1 := by
  intro h
  unfold getDecayingValue specDecayingValue at h
  simp only [List.getLast?_singleton] at h
  norm_num [eventAge] at h
  have h3 : (-(693 / 1000) : ℝ) = Real.log (1 / 2 : ℝ) := by
    rw [← h, Real.log_exp]
  rw [show (1 / 2 : ℝ) = (2 : ℝ)⁻¹ by norm_num, Real.log_inv] at h3
  have h4 : Real.log 2 = 693 / 1000 := by linarith
  have h5 := Real.log_two_gt_d9
  rw [h4] at h5
  norm_num at h5

/-- C8 (amended): `GetDecayingValue` returns 0 on an empty ledger and
otherwise the most recent event's value times `exp(-0.693·age/halfLife)`;
since 0.693 < ln 2 this strictly exceeds the spec's
`value·2^(-age/halfLife)` whenever value, age and half-life are positive. -/
theorem decaying_value_amended (events : List HistEvent) (now halfLife : ℚ) :
    (events = [] → getDecayingValue events now halfLife = 0) ∧
    (∀ e, events.getLast? = some e →
      getDecayingValue events now halfLife
        = (e.value : ℝ) * Real.exp (-(0.693) * ((eventAge e now : ℚ) : ℝ) / ((halfLife : ℚ) : ℝ)) ∧
      (0 < e.value → 0 < eventAge e now → 0 < halfLife →
        specDecayingValue events now halfLife < getDecayingValue events now halfLife)) := by
  constructor
  · intro he
    subst he
    rfl
  · intro e he
    constructor
    · unfold getDecayingValue
      rw [he]
    · intro hv ha hh
      unfold getDecayingValue specDecayingValue
      rw [he]
      have hv' : (0 : ℝ) < (e.value : ℝ) := by exact_mod_cast hv
      have ha' : (0 : ℝ) < ((eventAge e now : ℚ) : ℝ) := by exact_mod_cast ha
      have hh' : (0 : ℝ) < ((halfLife : ℚ) : ℝ) := by exact_mod_cast hh
      apply mul_lt_mul_of_pos_left ?_ hv'
      rw [Real.rpow_def_of_pos (by norm_num : (0:ℝ) < 2)]
      apply Real.exp_lt_exp.mpr
      have hq : (0 : ℝ) < ((eventAge e now : ℚ) : ℝ) / ((halfLife : ℚ) : ℝ) :=
        div_pos ha' hh'
      have hlog : (0.693 : ℝ) < Real.log 2 := by
        have := Real.log_two_gt_d9
        norm_num at this ⊢
        linarith
      calc Real.log 2 * (-(((eventAge e now : ℚ) : ℝ)) / ((halfLife : ℚ) : ℝ))
          = -(Real.log 2 * (((eventAge e now : ℚ) : ℝ) / ((halfLife : ℚ) : ℝ))) := by ring
        _ < -((0.693 : ℝ) * (((eventAge e now : ℚ) : ℝ) / ((halfLife : ℚ) : ℝ))) := by
            apply neg_lt_neg
            exact mul_lt_mul_of_pos_right hlog hq
        _ = -(0.693) * ((eventAge e now : ℚ) : ℝ) / ((halfLife : ℚ) : ℝ) := by ring

/-- Witness for `decaying_value_amended` at a single event of value 1, age
1, half-life 1. -/
theorem decaying_value_amended_witness :
    getDecayingValue [⟨1, 0, ""⟩] 1 1
      = ((1 : ℚ) : ℝ) * Real.exp (-(0.693) * ((eventAge ⟨1, 0, ""⟩ 1 : ℚ) : ℝ) / ((1 : ℚ) : ℝ)) ∧
    specDecayingValue [⟨1, 0, ""⟩] 1 1 < getDecayingValue [⟨1, 0, ""⟩] 1 1 := by
  obtain ⟨-, h2⟩ := decaying_value_amended [⟨1, 0, ""⟩] 1 1
  obtain ⟨ha, hb⟩ := h2 ⟨1, 0, ""⟩ rfl
  exact ⟨ha, hb (by norm_num) (by norm_num [eventAge]) (by norm_num)⟩

/-! ### C2: the history-node pull short-circuit -/

/-- C2: the code at the failing input.  The manager-created history node
(`CreateHistoryNode` runs `SetIsHistoryNode(true)`, switching the node type
to History) returns its base value 0 from `GetValue`, even though its
ledger holds an event of value 5 and `SumRecent(defaultWindow)` — the
calculation the HistoryStatNode constructor installed — is 5.  In general
`GetValue` on any History-typed node returns the base value without
touching the calculation function. -/
theorem history_node_getvalue_bug :
    ((getN gmH2.gs 0).map Node.type = some NodeType.history) ∧
    (∀ (fuel : Nat) (env : Env) (now : ℚ), (getValue (fuel + 1) env now gmH2.gs 0).1 = 0) ∧
    ((getN gmH2.gs 0).map (fun n => sumRecent n.events 0 n.defaultWindow) = some 5) ∧
    (∀ (s : GState) (i : Nat) (n : Node) (fuel : Nat) (env : Env) (now : ℚ),
      getN s i = some n → n.type = NodeType.history →
      getValue (fuel + 1) env now s i = (n.baseValue, s, 0)) := by
  refine ⟨rfl, ?_, ?_, ?_⟩
  · intro fuel env now
    rw [getValue_baseHist fuel env now
      (show getN gmH2.gs 0 = some { setIsHistoryNode (mkHistoryNode "h" "H" 4) true with
          events := [(⟨5, 0, ""⟩ : HistEvent)] } from rfl) rfl]
    rfl
  · rw [show getN gmH2.gs 0 = some { setIsHistoryNode (mkHistoryNode "h" "H" 4) true with
        events := [(⟨5, 0, ""⟩ : HistEvent)] } from rfl]
    simp only [Option.map_some', Option.some.injEq]
    norm_num [sumRecent, isWithinWindow, eventAge, setIsHistoryNode, mkHistoryNode, mkStatNode]
  · intro s i n fuel env now hn hty
    exact getValue_baseHist fuel env now hn (by rw [hty]; rfl)

/-- Witness for the general clause of `history_node_getvalue_bug`. -/
theorem history_node_getvalue_bug_witness :
    getValue 1 envFalse 0 gmH2.gs 0 = (0, gmH2.gs, 0) := by
  have h := history_node_getvalue_bug.2.2.2 gmH2.gs 0
    { setIsHistoryNode (mkHistoryNode "h" "H" 4) true with events := [(⟨5, 0, ""⟩ : HistEvent)] }
    0 envFalse 0 rfl rfl
  exact h

/-! ### C9: unknown-id operations -/

/-- C9 counterexample: on a fresh manager (pending-changes flag down),
`RemoveModifier` of an id that matches nothing still raises the
pending-changes flag — the operation is not free of state change. -/
theorem unknown_id_counterexample :
    gmInit.hasChanges = false ∧
    (removeModifierGM gmInit "nope").hasChanges = true ∧
    (removeModifierGM gmInit "nope").modAggs = gmInit.modAggs ∧
    (removeModifierGM gmInit "nope").gs = gmInit.gs :=
  ⟨rfl, rfl, rfl, rfl⟩

/-- C9 (amended): `SetNodeValue` on an unknown stat id reports false and
changes nothing; `RecordDamage` on an unknown history id changes nothing
(and reports nothing — it returns void); `RemoveModifier` and
`RemoveModifiersBySource` with an unmatched id/source remove no modifiers
but unconditionally raise the pending-changes flag. -/
theorem unknown_id_outcomes :
    (∀ (gm : GM) (id : String) (v : ℚ),
      findIdxById gm.gs id = none → setNodeValue gm id v = (false, gm)) ∧
    (∀ (gm : GM) (id : String) (amount : ℚ) (ty : String) (now : ℚ),
      gm.histIds.contains id = false → recordDamage gm id amount ty now = gm) ∧
    (∀ (gm : GM) (modifierId : String),
      (∀ p ∈ gm.modAggs, ∀ m ∈ p.2, m.id ≠ modifierId) →
        (removeModifierGM gm modifierId).modAggs = gm.modAggs ∧
        (removeModifierGM gm modifierId).gs = gm.gs ∧
        (removeModifierGM gm modifierId).hasChanges = true) ∧
    (∀ (gm : GM) (sourceId : String),
      (∀ p ∈ gm.modAggs, ∀ m ∈ p.2, m.sourceId ≠ sourceId) →
        (removeModifiersBySource gm sourceId).modAggs = gm.modAggs ∧
        (removeModifiersBySource gm sourceId).hasChanges = true) := by
  refine ⟨?_, ?_, ?_, ?_⟩
  · intro gm id v h
    unfold setNodeValue
    rw [h]
  · intro gm id amount ty now h
    unfold recordDamage
    rw [h]
    rfl
  · intro gm modifierId h
    refine ⟨?_, rfl, rfl⟩
    show gm.modAggs.map (fun p => (p.1, removeModifierAgg p.2 modifierId)) = gm.modAggs
    have hpt : ∀ p ∈ gm.modAggs, (p.1, removeModifierAgg p.2 modifierId) = p := by
      intro p hp
      have hfilter : removeModifierAgg p.2 modifierId = p.2 := by
        unfold removeModifierAgg
        apply List.filter_eq_self.mpr
        intro m hm
        simp [h p hp m hm]
      rw [hfilter]
    rw [List.map_congr_left hpt]
    simp
  · intro gm sourceId h
    have hfold : ∀ (l : List (String × List Mod)) (acc : List (String × List Mod) × GState),
        (l.foldl (fun acc p =>
          (acc.1 ++ [(p.1, removeModifiersBySourceAgg p.2 sourceId)],
           match findIdxById acc.2 p.1 with
           | some i => markDirtyOp acc.2 i
           | none => acc.2)) acc).1
          = acc.1 ++ l.map (fun p => (p.1, removeModifiersBySourceAgg p.2 sourceId)) := by
      intro l
      induction l with
      | nil => intro acc; simp
      | cons p t ih =>
        intro acc
        rw [List.foldl_cons, ih]
        simp [List.append_assoc]
    have hpt : ∀ p ∈ gm.modAggs, (p.1, removeModifiersBySourceAgg p.2 sourceId) = p := by
      intro p hp
      have hfilter : removeModifiersBySourceAgg p.2 sourceId = p.2 := by
        unfold removeModifiersBySourceAgg
        apply List.filter_eq_self.mpr
        intro m hm
        simp [h p hp m hm]
      rw [hfilter]
    constructor
    · show (gm.modAggs.foldl (fun acc p =>
          (acc.1 ++ [(p.1, removeModifiersBySourceAgg p.2 sourceId)],
           match findIdxById acc.2 p.1 with
           | some i => markDirtyOp acc.2 i
           | none => acc.2)) ([], gm.gs)).1 = gm.modAggs
      rw [hfold]
      rw [List.nil_append, List.map_congr_left hpt]
      simp
    · rfl

/-- Witness for `modifier_stacking_law`: the Override 42 wins on the
concrete sorted aggregator, and it has the greatest priority among the
applicable Overrides. -/
theorem modifier_stacking_law_witness :
    calculate aggFIMO 100 ctx0 = 42 ∧
    aggFIMO.Sorted modLE ∧
    ∀ x ∈ ovrList ctx0 aggFIMO, x.priority ≤ (mkSimpleMod "o" MType.override 42).priority := by
  obtain ⟨-, -, -, h4, h5, -, h7⟩ := modifier_stacking_law
  have hsorted : aggFIMO.Sorted modLE := h5 aggFIM (mkSimpleMod "o" MType.override 42)
  refine ⟨h7, hsorted, ?_⟩
  intro x hx
  exact h4 aggFIMO ctx0 (mkSimpleMod "o" MType.override 42) hsorted rfl x hx

/-- Witness for `unknown_id_outcomes` on the concrete manager `gmH`. -/
theorem unknown_id_outcomes_witness :
    setNodeValue gmH "zzz" 1 = (false, gmH) ∧
    recordDamage gmH "zzz" 1 "" 0 = gmH ∧
    (removeModifierGM gmH "zzz").modAggs = gmH.modAggs ∧
    (removeModifiersBySource gmH "zzz").hasChanges = true := by
  obtain ⟨h1, h2, h3, h4⟩ := unknown_id_outcomes
  refine ⟨h1 gmH "zzz" 1 rfl, h2 gmH "zzz" 1 "" 0 rfl, ?_, ?_⟩
  · exact (h3 gmH "zzz" (by intro p hp; rw [show gmH.modAggs = [] from rfl] at hp; cases hp)).1
  · exact (h4 gmH "zzz" (by intro p hp; rw [show gmH.modAggs = [] from rfl] at hp; cases hp)).2

end DagStats
